import Mathlib

/-!
Shallow embedding of the job-postings ingestion / reconciliation pipeline
(`merged_jobs.py`, `app.py`, `riskified_scraper.py`, `similarweb_scraper.py`)
together with proofs of the specified properties.

Modelling conventions:
* Python strings are `String` / `List Char`; `str.lower` is `String.toLower`
  (the inputs of interest are ASCII or Hebrew, where it agrees with CPython).
* Python dict rows (CSV records) are association lists
  `List (String × String)` with the `row.get(k, "")` access discipline used
  throughout the source.
* The `re` character classes `\w`, `\d`, `\s` are modelled on their ASCII
  part (`[A-Za-z0-9_]`, `[0-9]`, `[ \t\n\r\x0b\x0c]`); every string the
  proofs evaluate on stays inside that fragment.
* `NaN` results (`np.nan`) are modelled as `Option.none`.
-/

namespace Jobs

/-! ## Python dict rows -/

/-- Python `row.get(k, "")` (also the value of `row[k]` when present). -/
def dget : List (String × String) → String → String
  | [], _ => ""
  | p :: rest, k => if p.1 = k then p.2 else dget rest k

/-- Python `k in row`. -/
def dmem : List (String × String) → String → Bool
  | [], _ => false
  | p :: rest, k => p.1 == k || dmem rest k

/-- Python `row[k] = v`: dicts keep the insertion position of an existing
key and append a fresh key at the end. -/
def dset : List (String × String) → String → String → List (String × String)
  | [], k, v => [(k, v)]
  | p :: rest, k, v => if p.1 = k then (k, v) :: rest else p :: dset rest k v

/-- Python `row.setdefault(k, v)`. -/
def dsetdefault (r : List (String × String)) (k : String) (v : String) :
    List (String × String) :=
  if dmem r k then r else r ++ [(k, v)]

/-! ## Link canonicalizer (`canonicalize_job_link`)

`re.search(r"/jobs/view/[\w-]*?(\d+)", link)`; on a hit the function rewrites
to `f"https://www.linkedin.com/jobs/view/{job_id}/"`, otherwise it returns
the input unchanged (empty input gives `""`). -/

/-- ASCII model of the `[\w-]` class in the search pattern. -/
def isLinkWordChar (c : Char) : Bool := c.isAlphanum || c == '_' || c == '-'

/-- The literal `/jobs/view/` that opens the search pattern. -/
def jobsViewLit : List Char :=
  ['/', 'j', 'o', 'b', 's', '/', 'v', 'i', 'e', 'w', '/']

/-- After the literal, the lazy `[\w-]*?` walks forward through word
characters until the first digit; the greedy `(\d+)` then captures the
maximal digit run there. -/
def findGroupAfter : List Char → Option (List Char)
  | [] => none
  | c :: rest =>
    if c.isDigit then some ((c :: rest).takeWhile Char.isDigit)
    else if isLinkWordChar c then findGroupAfter rest
    else none

/-- One attempt of the backtracking engine at the current offset. -/
def tryJobsView (s : List Char) : Option (List Char) :=
  if jobsViewLit.isPrefixOf s then findGroupAfter (s.drop 11) else none

/-- `re.search`: the leftmost offset whose attempt succeeds. -/
def searchJobsView : List Char → Option (List Char)
  | [] => none
  | c :: rest =>
    match tryJobsView (c :: rest) with
    | some g => some g
    | none => searchJobsView rest

/-- The fixed head of the canonical template. -/
def canonHead : List Char := "https://www.linkedin.com/jobs/view/".toList

/-- `canonicalize_job_link` on string inputs (both the merge-layer and the
search-connector variant compute this same function on strings). -/
def canonicalize_job_link (link : List Char) : List Char :=
  if link = [] then []
  else
    match searchJobsView link with
    | none => link
    | some jobId => canonHead ++ (jobId ++ ['/'])

/-- String-level wrapper used by the row-processing code. -/
def canonStr (s : String) : String := String.mk (canonicalize_job_link s.toList)

/-! ## Text normalizer (`normalize_text`)

Two variants exist in the repository.  The merge-layer one
(`merged_jobs.py`) is `strip(collapse(nfkc(unescape(s))))`; the
search-connector one (`app.py`) additionally removes control characters
(Unicode category `C*`, keeping newline and tab) between NFKC and the
whitespace collapse.  `html.unescape` and `unicodedata.normalize("NFKC", ·)`
are external library transformations and enter the model as explicit
function parameters. -/

/-- ASCII model of the characters matched by `\s` / stripped by `str.strip`. -/
def isPySpace (c : Char) : Bool :=
  c == ' ' || c == '\t' || c == '\n' || c == '\r' ||
    c == Char.ofNat 11 || c == Char.ofNat 12

/-- `re.sub(r"\s+", " ", s)`: every maximal whitespace run becomes one
space.  The boolean records whether the scan is inside a run. -/
def collapseGo : Bool → List Char → List Char
  | _, [] => []
  | inRun, c :: rest =>
    if isPySpace c then
      if inRun then collapseGo true rest else ' ' :: collapseGo true rest
    else c :: collapseGo false rest

def collapseWs (l : List Char) : List Char := collapseGo false l

/-- `str.strip()` on its ASCII-whitespace part. -/
def pstrip (l : List Char) : List Char :=
  ((l.dropWhile isPySpace).reverse.dropWhile isPySpace).reverse

/-- `str.lstrip()`. -/
def plstrip (l : List Char) : List Char := l.dropWhile isPySpace

/-- ASCII model of `unicodedata.category(ch)[0] == "C"` (category `Cc`). -/
def isCtlChar (c : Char) : Bool := c.val < 32 || c.val == 127

/-- The control-character filter of the app-variant normalizer: keep `ch`
when its category is not `C` or it is newline/tab. -/
def removeCtl (l : List Char) : List Char :=
  l.filter (fun c => !isCtlChar c || c == '\n' || c == '\t')

/-- `normalize_text` of `merged_jobs.py` (`None` input gives `""`; no
control-character removal). -/
def normalize_text_merged (unescape nfkc : List Char → List Char) :
    Option (List Char) → List Char
  | none => []
  | some l => pstrip (collapseWs (nfkc (unescape l)))

/-- `normalize_text` of `app.py` (falsy input gives `""`; control characters
outside newline/tab removed before the whitespace collapse). -/
def normalize_text_app (unescape nfkc : List Char → List Char) :
    Option (List Char) → List Char
  | none => []
  | some l =>
    if l = [] then []
    else pstrip (collapseWs (removeCtl (nfkc (unescape l))))

/-- The no-adjacent-whitespace relation that the collapse establishes. -/
def noWsPair (a b : Char) : Prop := isPySpace a = false ∨ isPySpace b = false

/-- The shape contract of both normalizers' outputs: all surviving
whitespace is a single plain space, no two adjacent whitespace characters,
and no leading/trailing whitespace. -/
def TrimmedCollapsed (l : List Char) : Prop :=
  (∀ c ∈ l, isPySpace c = true → c = ' ') ∧
  l.Chain' noWsPair ∧
  (∀ c, l.head? = some c → isPySpace c = false) ∧
  (∀ c, l.getLast? = some c → isPySpace c = false)

/-! ## Encoding cascade (`load_csv_any`)

`for enc in ENCODINGS: try: return pd.read_csv(path, encoding=enc)
except Exception as e: last_err = e; continue` followed by
`raise last_err`.  The pandas reader is a parameter; the model also
returns the trace of encodings actually attempted, so that
"first success wins, later candidates not attempted" is expressible. -/

def ENCODINGS : List String := ["utf-8-sig", "utf-8", "cp1255"]

/-- The candidate loop: result (success, or the last error seen — `none`
models Python's `raise None` for an empty candidate list) together with
the encodings attempted, in order. -/
def tryEncodings {E D : Type} (read : String → Except E D) :
    List String → Option E → Except (Option E) D × List String
  | [], last => (Except.error last, [])
  | e :: rest, _ =>
    match read e with
    | Except.ok v => (Except.ok v, [e])
    | Except.error err =>
      let r := tryEncodings read rest (some err)
      (r.1, e :: r.2)

/-- `load_csv_any` over an abstract per-encoding reader. -/
def load_csv_any {E D : Type} (read : String → Except E D) :
    Except (Option E) D × List String :=
  tryEncodings read ENCODINGS none

/-- A concrete reader failing on the first two encodings. -/
def demoRead : String → Except String Nat := fun e =>
  if e = "utf-8-sig" then Except.error "bom boom"
  else if e = "utf-8" then Except.error "utf8 boom"
  else Except.ok 7

/-! ## Years-of-experience extraction (`extract_years_from_text`)

`EN_YEARS_RE` and `HE_YEARS_RE` are compiled with `re.IGNORECASE` and
`re.VERBOSE`; the function collects `int(g1 or g2 or g3)` over
`finditer` of both patterns and returns `float(min(all_vals))`, or
`np.nan` (modelled `none`) when the text is falsy or nothing matched.
The matchers below implement the exact backtracking preferences of the
patterns: alternatives in written order, `\d{1,2}` greedy with
backtracking, `\s*` maximal (never retried — it is always followed by a
non-whitespace element), `\+?`/`s?` and the trailing experience clause
greedy. -/

def firstSome {α β : Type} : List α → (α → Option β) → Option β
  | [], _ => none
  | a :: as, f =>
    match f a with
    | some b => some b
    | none => firstSome as f

/-- Case-insensitive character match against a lowercase pattern char. -/
def lcEq (c p : Char) : Bool := c.toLower == p

/-- Match a caseless literal, returning the remainder. -/
def litAt : List Char → List Char → Option (List Char)
  | [], s => some s
  | _, [] => none
  | p :: ps, c :: cs => if lcEq c p then litAt ps cs else none

def digitVal (c : Char) : Nat := c.toNat - 48

/-- `(\d{1,2})` greedy: candidate (value, remainder) pairs in backtracking
order — two digits first, then one. -/
def digits12 : List Char → List (Nat × List Char)
  | [] => []
  | [c] => if c.isDigit then [(digitVal c, [])] else []
  | c1 :: c2 :: rest =>
    if c1.isDigit then
      if c2.isDigit then
        [(10 * digitVal c1 + digitVal c2, rest), (digitVal c1, c2 :: rest)]
      else [(digitVal c1, c2 :: rest)]
    else []

def dropSpaces (s : List Char) : List Char := s.dropWhile isPySpace

/-- `\+?` (greedy; the following elements cannot consume `+`). -/
def optPlus : List Char → List Char
  | '+' :: r => r
  | s => s

/-- `\s*\+?\s*years?` (greedy optional `s`). -/
def tailYears (s : List Char) : Option (List Char) :=
  match litAt "year".toList (dropSpaces (optPlus (dropSpaces s))) with
  | none => none
  | some r =>
    match r with
    | c :: r' => if lcEq c 's' then some r' else some r
    | [] => some []

/-- `(?:\sof\s(?:relevant|professional)\s+experience)?`: the optional
trailing clause of the second English alternative. -/
def expClause (s : List Char) : Option (List Char) :=
  match s with
  | [] => none
  | c :: rest =>
    if isPySpace c then
      match litAt "of".toList rest with
      | none => none
      | some r2 =>
        match r2 with
        | [] => none
        | d :: r3 =>
          if isPySpace d then
            match (litAt "relevant".toList r3).orElse
                (fun _ => litAt "professional".toList r3) with
            | none => none
            | some r4 =>
              match r4 with
              | [] => none
              | e :: r5 =>
                if isPySpace e then litAt "experience".toList (dropSpaces r5)
                else none
          else none
    else none

/-- First English alternative: `at\ least\ \s*(\d{1,2})\s*\+?\s*years?`. -/
def enBranch1 (s : List Char) : Option (Nat × List Char) :=
  match litAt "at least ".toList s with
  | none => none
  | some r =>
    firstSome (digits12 (dropSpaces r)) (fun p =>
      (tailYears p.2).map (fun rem => (p.1, rem)))

/-- Second English alternative:
`(\d{1,2})\s*\+?\s*years?(?:\sof\s(?:relevant|professional)\s+experience)?`. -/
def enBranch2 (s : List Char) : Option (Nat × List Char) :=
  firstSome (digits12 s) (fun p =>
    match tailYears p.2 with
    | none => none
    | some rem =>
      match expClause rem with
      | some rem' => some (p.1, rem')
      | none => some (p.1, rem))

/-- Third English alternative: `(\d{1,2})\s*\+\s*years?` (subsumed by the
second but part of the pattern). -/
def enBranch3 (s : List Char) : Option (Nat × List Char) :=
  firstSome (digits12 s) (fun p =>
    match dropSpaces p.2 with
    | '+' :: r =>
      (match litAt "year".toList (dropSpaces r) with
      | none => none
      | some r2 =>
        match r2 with
        | c :: r' => if lcEq c 's' then some (p.1, r') else some (p.1, r2)
        | [] => some (p.1, [])).map (fun q => q)
    | _ => none)

/-- `EN_YEARS_RE` at one offset: alternatives in written order. -/
def matchEnAt (s : List Char) : Option (Nat × List Char) :=
  (enBranch1 s).orElse (fun _ => (enBranch2 s).orElse (fun _ => enBranch3 s))

/-- `(?:שנה|שנים|שנות)` in written order. -/
def heYearsAlt (s : List Char) : Option (List Char) :=
  (litAt "שנה".toList s).orElse (fun _ =>
    (litAt "שנים".toList s).orElse (fun _ => litAt "שנות".toList s))

/-- `\s*(?:\+)?\s*(?:שנה|שנים|שנות)\s*ניסיון`. -/
def tailHe (s : List Char) : Option (List Char) :=
  match heYearsAlt (dropSpaces (optPlus (dropSpaces s))) with
  | none => none
  | some r => litAt "ניסיון".toList (dropSpaces r)

/-- First Hebrew alternative, prefixed by `לפחות\s*`. -/
def heBranch1 (s : List Char) : Option (Nat × List Char) :=
  match litAt "לפחות".toList s with
  | none => none
  | some r =>
    firstSome (digits12 (dropSpaces r)) (fun p =>
      (tailHe p.2).map (fun rem => (p.1, rem)))

/-- Second Hebrew alternative. -/
def heBranch2 (s : List Char) : Option (Nat × List Char) :=
  firstSome (digits12 s) (fun p =>
    (tailHe p.2).map (fun rem => (p.1, rem)))

/-- `HE_YEARS_RE` at one offset. -/
def matchHeAt (s : List Char) : Option (Nat × List Char) :=
  (heBranch1 s).orElse (fun _ => heBranch2 s)

/-- `finditer` value collection: scan left to right, continue after the end
of each (always nonempty) match.  Fuel is the remaining length. -/
def finditerVals (matchAt : List Char → Option (Nat × List Char)) :
    Nat → List Char → List Nat
  | 0, _ => []
  | _, [] => []
  | fuel + 1, c :: rest =>
    match matchAt (c :: rest) with
    | some (v, rem) => v :: finditerVals matchAt fuel rem
    | none => finditerVals matchAt fuel rest

/-- All integers matched by the English pattern. -/
def enVals (t : List Char) : List Nat := finditerVals matchEnAt t.length t

/-- All integers matched by the Hebrew pattern. -/
def heVals (t : List Char) : List Nat := finditerVals matchHeAt t.length t

/-- `all_vals = ens + hes`. -/
def yearsVals (t : List Char) : List Nat := enVals t ++ heVals t

/-- `extract_years_from_text` (`app.py`): `none` models `np.nan`; the
returned float is always a small integer, modelled as `Nat`. -/
def extract_years_from_text (t : List Char) : Option Nat :=
  if t = [] then none
  else
    match yearsVals t with
    | [] => none
    | v :: vs => some (vs.foldl min v)

/-- The bilingual example of the claim. -/
def exC4 : List Char :=
  "We need 3+ years of experience; לפחות 5 שנות ניסיון".toList

/-! ## Seniority classifier (`seniority_bucket`)

A cascade of `re.search` calls on the lowercased title followed by
threshold bands on `years_required`.  `\b...\b` word-boundary search is
modelled exactly (boundary = edge of text or adjacent non-word character);
`(senior|sr\.?)\b` additionally accepts `sr.` when the dot is followed by a
word character (the boundary then sits between the dot and that letter).
`years_required` is a float (NaN ↦ `none`), modelled as `Option ℚ`. -/

def isWordCharB (c : Char) : Bool := c.isAlphanum || c == '_'

def boundaryBefore (t : List Char) (i : Nat) : Bool :=
  i == 0 || !isWordCharB (t.getD (i - 1) ' ')

def boundaryAfter (t : List Char) (j : Nat) : Bool :=
  decide (t.length ≤ j) || !isWordCharB (t.getD j ' ')

/-- `\b<w>\b` matches at offset `i`. -/
def wordTokenAt (t w : List Char) (i : Nat) : Bool :=
  boundaryBefore t i && w.isPrefixOf (t.drop i) &&
    boundaryAfter t (i + w.length)

/-- `re.search(r"\b<w>\b", t)` is truthy. -/
def hasWordToken (t w : List Char) : Bool :=
  (List.range t.length).any (fun i => wordTokenAt t w i)

def hasAnyToken (t : List Char) (ws : List (List Char)) : Bool :=
  ws.any (fun w => hasWordToken t w)

/-- `\bsr\.?\b` at offset `i`: either plain `sr` with a boundary after it,
or `sr.` with a word character right after the dot. -/
def srTokenAt (t : List Char) (i : Nat) : Bool :=
  boundaryBefore t i && (['s', 'r'].isPrefixOf (t.drop i)) &&
    (boundaryAfter t (i + 2) ||
      (t.getD (i + 2) ' ' == '.' && isWordCharB (t.getD (i + 3) ' ') &&
        decide (i + 3 < t.length)))

/-- `re.search(r"\b(senior|sr\.?)\b", t)` is truthy. -/
def hasSeniorSignal (t : List Char) : Bool :=
  hasWordToken t "senior".toList ||
    (List.range t.length).any (fun i => srTokenAt t i)

def mgrTokens : List (List Char) :=
  ["manager".toList, "head".toList, "director".toList, "vp".toList]

def leadTokens : List (List Char) :=
  ["lead".toList, "principal".toList, "staff".toList]

def jrTokens : List (List Char) :=
  ["intern".toList, "student".toList, "junior".toList, "entry".toList]

/-- `seniority_bucket` (`app.py`), translated clause by clause: the four
title-token searches in source order, then the year bands
`y <= 1`, `1 < y < 5`, `5 <= y < 8`, `y >= 8`, then the `"Mid"` fallback. -/
def seniority_bucket (title : List Char) (years : Option ℚ) : String :=
  let t := title.map Char.toLower
  if hasAnyToken t mgrTokens then "Manager+"
  else if hasAnyToken t leadTokens then "Lead/Principal"
  else if hasAnyToken t jrTokens then "Junior/Entry"
  else if hasSeniorSignal t then "Senior"
  else
    match years with
    | some y =>
      if y ≤ 1 then "Junior/Entry"
      else if 1 < y ∧ y < 5 then "Mid"
      else if 5 ≤ y ∧ y < 8 then "Senior"
      else if 8 ≤ y then "Lead/Principal"
      else "Mid"
    | none => "Mid"

/-- The cascade exactly as the specification words it: first-match-wins on
management, lead-IC, junior and senior title tokens, then the partitioned
bands ≤1 / (1,5) / [5,8) / ≥8 on available years, else `Mid`. -/
def seniority_spec_cascade (title : List Char) (years : Option ℚ) : String :=
  let t := title.map Char.toLower
  if hasAnyToken t mgrTokens then "Manager+"
  else if hasAnyToken t leadTokens then "Lead/Principal"
  else if hasAnyToken t jrTokens then "Junior/Entry"
  else if hasSeniorSignal t then "Senior"
  else
    match years with
    | some y =>
      if y ≤ 1 then "Junior/Entry"
      else if y < 5 then "Mid"
      else if y < 8 then "Senior"
      else "Lead/Principal"
    | none => "Mid"

/-! ## Section splitters

Two splitters exist: `split_sections_free` (`app.py`, anchor phrases over
free text, with a whole-text-to-`about_role` fallback) and
`parse_greenhouse_to_riskified_format2` (`similarweb_scraper.py`, keyword
anchors over the text extracted from the description markup — the
BeautifulSoup text extraction itself is outside the model, the function is
modelled from its plain-text scan onward).  Regex patterns with
alternations/optional parts are compiled to their finite lists of literal
alternatives in backtracking-preference order; all matching is
case-insensitive. -/

def apoC : Char := Char.ofNat 39

def curlyApoC : Char := Char.ofNat 8217

/-- Anchor patterns of the `about_role` section, in source order. -/
def arPats : List (List (List Char)) :=
  [["about the role".toList],
   ["role overview".toList],
   ["in this position".toList, "in this role".toList],
   ["your mission".toList],
   ["as a ".toList],
   ["we are looking for".toList,
    "we ".toList ++ apoC :: "re looking for".toList,
    "we re looking for".toList],
   ["job description".toList],
   ["position overview".toList]]

/-- Anchor patterns of the `responsibilities` section. -/
def respPats : List (List (List Char)) :=
  [["key responsibilities".toList],
   ["what you".toList ++ apoC :: "ll be doing".toList,
    "what youll be doing".toList],
   ["what you will be doing".toList],
   ["day-to-day".toList, "day-to day".toList,
    "day to-day".toList, "day to day".toList],
   ["what you will do".toList],
   ["responsibilities include".toList],
   ["your responsibilities".toList],
   ["main duties".toList]]

/-- Anchor patterns of the `qualifications` section. -/
def qualPats : List (List (List Char)) :=
  [["requirements".toList],
   ["qualifications".toList],
   ["ideal candidate".toList],
   ["must have".toList],
   ["needed".toList],
   ["skills".toList],
   ["experience required".toList],
   ["what we".toList ++ apoC :: "re looking for".toList,
    "what were looking for".toList],
   ["required skills".toList]]

/-- Anchor patterns of the `benefits` section. -/
def benPats : List (List (List Char)) :=
  [["why you".toList ++ apoC :: "ll love".toList,
    "why youll love".toList,
    "why love".toList],
   ["benefits".toList],
   ["perks".toList],
   ["what we offer".toList],
   ["package includes".toList]]

/-- The anchor table in dict order. -/
def anchors : List (String × List (List (List Char))) :=
  [("about_role", arPats), ("responsibilities", respPats),
   ("qualifications", qualPats), ("benefits", benPats)]

/-- Match length of the first matching alternative at the head of `s`. -/
def altMatchLen (alts : List (List Char)) (s : List Char) : Option Nat :=
  firstSome alts (fun a =>
    match litAt a s with
    | some _ => some a.length
    | none => none)

/-- `re.finditer` start offsets: scan left to right, resume after each
match end.  Fuel bounds the scan (matches are nonempty). -/
def finditerStarts (alts : List (List Char)) :
    Nat → Nat → List Char → List Nat
  | 0, _, _ => []
  | _ + 1, _, [] => []
  | fuel + 1, pos, c :: rest =>
    match altMatchLen alts (c :: rest) with
    | some len =>
      pos :: finditerStarts alts fuel (pos + len) ((c :: rest).drop len)
    | none => finditerStarts alts fuel (pos + 1) rest

/-- All `(start, section)` hits over every anchor pattern, key-major in
dict order, then pattern order, then position. -/
def anchorHits (t : List Char) : List (Nat × String) :=
  anchors.flatMap (fun kv =>
    kv.2.flatMap (fun pat =>
      (finditerStarts pat (t.length + 1) 0 t).map (fun s => (s, kv.1))))

/-- Stable insertion for `list.sort(key=lambda x: x[0])`. -/
def insertHit (x : Nat × String) : List (Nat × String) → List (Nat × String)
  | [] => [x]
  | y :: ys => if y.1 < x.1 then y :: insertHit x ys else x :: y :: ys

def sortHits : List (Nat × String) → List (Nat × String)
  | [] => []
  | x :: xs => insertHit x (sortHits xs)

/-- `re.sub(r"[ \t]+\n", "\n", text)`: a space/tab run directly before a
newline is dropped. -/
def isSpTab (c : Char) : Bool := c == ' ' || c == '\t'

def cleanSpNlGo : Nat → List Char → List Char
  | 0, _ => []
  | _ + 1, [] => []
  | fuel + 1, c :: rest =>
    if isSpTab c then
      match (c :: rest).dropWhile isSpTab with
      | '\n' :: tail2 => '\n' :: cleanSpNlGo fuel tail2
      | other => (c :: rest).takeWhile isSpTab ++ cleanSpNlGo fuel other
    else c :: cleanSpNlGo fuel rest

def cleanSpaceNl (t : List Char) : List Char := cleanSpNlGo t.length t

/-- The four-section result dict of `split_sections_free`. -/
structure Sections4 where
  about_role : List Char
  responsibilities : List Char
  qualifications : List Char
  benefits : List Char
deriving DecidableEq

def Sections4.empty : Sections4 := ⟨[], [], [], []⟩

def sget (s : Sections4) (k : String) : List Char :=
  if k = "about_role" then s.about_role
  else if k = "responsibilities" then s.responsibilities
  else if k = "qualifications" then s.qualifications
  else s.benefits

def sset (s : Sections4) (k : String) (v : List Char) : Sections4 :=
  if k = "about_role" then ⟨v, s.responsibilities, s.qualifications, s.benefits⟩
  else if k = "responsibilities" then ⟨s.about_role, v, s.qualifications, s.benefits⟩
  else if k = "qualifications" then ⟨s.about_role, s.responsibilities, v, s.benefits⟩
  else ⟨s.about_role, s.responsibilities, s.qualifications, v⟩

/-- Leftmost match end of one alternative-list pattern. -/
def searchAltEndGo (alts : List (List Char)) : Nat → List Char → Option Nat
  | _, [] => none
  | pos, c :: rest =>
    match altMatchLen alts (c :: rest) with
    | some len => some (pos + len)
    | none => searchAltEndGo alts (pos + 1) rest

def patsFor (k : String) : List (List (List Char)) :=
  match anchors.find? (fun kv => kv.1 == k) with
  | some kv => kv.2
  | none => []

/-- The per-chunk anchor-phrase stripping: first pattern of the section
with a match anywhere in the chunk wins; the chunk is cut after the match
end and left-stripped. -/
def stripAnchor (pats : List (List (List Char))) (chunk : List Char) :
    List Char :=
  match firstSome pats (fun pat => searchAltEndGo pat 0 chunk) with
  | some e => plstrip (chunk.drop e)
  | none => chunk

def splitLoop (t : List Char) :
    List ((Nat × Option String) × Nat) → Sections4 → Sections4
  | [], secs => secs
  | (hit, endPos) :: rest, secs =>
    match hit.2 with
    | none => splitLoop t rest secs
    | some key =>
      let chunk := pstrip ((t.drop hit.1).take (endPos - hit.1))
      let chunk2 := stripAnchor (patsFor key) chunk
      let prev := sget secs key
      let newVal := if prev = [] then chunk2 else pstrip (prev ++ '\n' :: chunk2)
      splitLoop t rest (sset secs key newVal)

def consecPairs : List (Nat × Option String) →
    List ((Nat × Option String) × Nat)
  | [] => []
  | [_] => []
  | x :: y :: rest => (x, y.1) :: consecPairs (y :: rest)

/-- `split_sections_free` (`app.py`): clean the text, collect and sort
all anchor hits; with no hit the whole cleaned text (stripped) goes to
`about_role`; otherwise the text is partitioned at the hit offsets with a
terminal sentinel. -/
def split_sections_free (text : List Char) : Sections4 :=
  if text = [] then Sections4.empty
  else if sortHits (anchorHits (cleanSpaceNl text)) = [] then
    ⟨pstrip (cleanSpaceNl text), [], [], []⟩
  else
    splitLoop (cleanSpaceNl text)
      (consecPairs ((sortHits (anchorHits (cleanSpaceNl text))).map
          (fun p => (p.1, (some p.2 : Option String))) ++
        [((cleanSpaceNl text).length, (none : Option String))]))
      Sections4.empty

/-! ### The similarweb splitter -/

inductive GhKey where
  | aboutUs | aboutRole | doing | quals | lifeAt | news
deriving DecidableEq

/-- The Python dict keys of `section_map`, used for tie-breaking in the
tuple sort. -/
def ghName : GhKey → String
  | .aboutUs => "About Us"
  | .aboutRole => "About the Role"
  | .doing => String.mk ("What You".toList ++ apoC :: "ll Be Doing".toList)
  | .quals => "Qualifications"
  | .lifeAt => "Life at"
  | .news => "In the News"

/-- `section_map` of `parse_greenhouse_to_riskified_format2`, in dict
order, keywords as written (curly and straight apostrophes differ). -/
def gh2Map : List (GhKey × List (List Char)) :=
  [(.aboutUs, ["about similarweb".toList, "about us".toList,
    "who we are".toList, "our company".toList, "similarweb is".toList]),
   (.aboutRole, ["we are looking for".toList,
    "we".toList ++ curlyApoC :: "re looking for".toList,
    "about the role".toList, "role overview".toList,
    "why is this role".toList]),
   (.doing, ["key responsibilities".toList,
    "what you".toList ++ apoC :: "ll be doing".toList,
    "your role".toList, "day-to-day".toList,
    "so, what will you be doing".toList]),
   (.quals, ["requirements".toList, "qualifications".toList,
    "ideal candidate".toList, "must have".toList, "needed".toList,
    "this is the perfect job".toList]),
   (.lifeAt, ["why similarweb".toList,
    "why you".toList ++ curlyApoC :: "ll love".toList,
    "why you".toList ++ apoC :: "ll love".toList,
    "benefits".toList, "perks".toList, "life at similarweb".toList,
    "you".toList ++ curlyApoC :: "ll find a home".toList,
    "diversity isn".toList ++ curlyApoC :: "t just".toList]),
   (.news, ["in the news".toList])]

structure SectionsGh where
  aboutUs : List Char
  aboutRole : List Char
  doing : List Char
  quals : List Char
  lifeAt : List Char
  news : List Char
deriving DecidableEq

def SectionsGh.empty : SectionsGh := ⟨[], [], [], [], [], []⟩

def ghGet (s : SectionsGh) : GhKey → List Char
  | .aboutUs => s.aboutUs
  | .aboutRole => s.aboutRole
  | .doing => s.doing
  | .quals => s.quals
  | .lifeAt => s.lifeAt
  | .news => s.news

def ghSet (s : SectionsGh) : GhKey → List Char → SectionsGh
  | .aboutUs, v => ⟨v, s.aboutRole, s.doing, s.quals, s.lifeAt, s.news⟩
  | .aboutRole, v => ⟨s.aboutUs, v, s.doing, s.quals, s.lifeAt, s.news⟩
  | .doing, v => ⟨s.aboutUs, s.aboutRole, v, s.quals, s.lifeAt, s.news⟩
  | .quals, v => ⟨s.aboutUs, s.aboutRole, s.doing, v, s.lifeAt, s.news⟩
  | .lifeAt, v => ⟨s.aboutUs, s.aboutRole, s.doing, s.quals, v, s.news⟩
  | .news, v => ⟨s.aboutUs, s.aboutRole, s.doing, s.quals, s.lifeAt, v⟩

/-- `re.search(re.escape(kw), text, re.IGNORECASE)`: start offset of the
first occurrence. -/
def searchLitStart (kw : List Char) : Nat → List Char → Option Nat
  | _, [] => none
  | pos, c :: rest =>
    match litAt kw (c :: rest) with
    | some _ => some pos
    | none => searchLitStart kw (pos + 1) rest

/-- The `matches` list: one entry per keyword that occurs somewhere. -/
def gh2Matches (t : List Char) : List (Nat × GhKey) :=
  gh2Map.flatMap (fun kv =>
    kv.2.filterMap (fun kw =>
      (searchLitStart kw 0 t).map (fun s => (s, kv.1))))

/-- Python tuple comparison `(start, section_name)`. -/
def gh2Lt (a b : Nat × GhKey) : Prop :=
  a.1 < b.1 ∨ (a.1 = b.1 ∧ ghName a.2 < ghName b.2)

instance gh2LtDec (a b : Nat × GhKey) : Decidable (gh2Lt a b) := by
  unfold gh2Lt
  infer_instance

def insertGh (x : Nat × GhKey) : List (Nat × GhKey) → List (Nat × GhKey)
  | [] => [x]
  | y :: ys => if gh2Lt y x then y :: insertGh x ys else x :: y :: ys

def sortGh : List (Nat × GhKey) → List (Nat × GhKey)
  | [] => []
  | x :: xs => insertGh x (sortGh xs)

def gh2Loop (t : List Char) :
    List ((Nat × Option GhKey) × Nat) → SectionsGh → SectionsGh
  | [], s => s
  | (hit, endPos) :: rest, s =>
    match hit.2 with
    | none => gh2Loop t rest s
    | some k =>
      let content := pstrip ((t.drop hit.1).take (endPos - hit.1))
      gh2Loop t rest (ghSet s k (ghGet s k ++ content))

def ghConsec : List (Nat × Option GhKey) → List ((Nat × Option GhKey) × Nat)
  | [] => []
  | [_] => []
  | x :: y :: rest => (x, y.1) :: ghConsec (y :: rest)

def ghStripAll (s : SectionsGh) : SectionsGh :=
  ⟨pstrip s.aboutUs, pstrip s.aboutRole, pstrip s.doing,
   pstrip s.quals, pstrip s.lifeAt, pstrip s.news⟩

/-- `parse_greenhouse_to_riskified_format2` from its plain-text scan
onward (`text = soup.get_text(...)` is the input here). -/
def parse_greenhouse_format2 (t : List Char) : SectionsGh :=
  match sortGh (gh2Matches t) with
  | [] => SectionsGh.empty
  | m :: ms =>
    let withSent :=
      ((m :: ms).map (fun p => (p.1, (some p.2 : Option GhKey)))) ++
        [(t.length, (none : Option GhKey))]
    ghStripAll (gh2Loop t (ghConsec withSent) SectionsGh.empty)

/-! ## Per-source reconcilers (`upsert_and_mark_stale`)

Two variants: the search-driven one (`app.py`, keyed by canonical link,
also forcing `is_open` on staleness) and the board-API one
(`riskified_scraper.py` / `similarweb_scraper.py`, keyed by `str(id)`).
The CSV load/save envelope is outside the model: its reading back
preserves `row.get(k, "")` for every written column, and for the
riskified variant the fixed-column write is modelled explicitly as a
projection.  `utc_now_iso()` is the `now` parameter. -/

abbrev Rec := List (String × String)

def wybdCol : String := String.mk ("What You".toList ++ apoC :: "ll Be Doing".toList)

/-- The `ensure_schema` column list of `app.py`. -/
def serperCols : List String :=
  ["id", "title", "company", "location", "date_posted", "link", "source",
   "About Us", "About the Role", wybdCol, "Qualifications",
   "Life at", "In the News", "raw_description_html", "scraped_at",
   "is_open", "status", "stale_at"]

/-- The `FIELDS` list of `riskified_scraper.py`. -/
def riskCols : List String :=
  ["id", "title", "location", "date_posted", "link", "source", "scraped_at",
   "About Us", "About the Role", wybdCol, "Qualifications",
   "Benefits", "Life at", "General", "status", "stale_at"]

def ensureCols (cols : List String) (r : Rec) : Rec :=
  cols.foldl (fun acc c => dsetdefault acc c "") r

def ensure_schema_serper (r : Rec) : Rec := ensureCols serperCols r

def ensure_schema_risk (r : Rec) : Rec := ensureCols riskCols r

/-- `prepared_new` preparation of the search-driven reconciler. -/
def prepNewSerper (r : Rec) : Rec :=
  dsetdefault (dsetdefault
    (dset (ensure_schema_serper r) "link"
      (canonStr (dget (ensure_schema_serper r) "link")))
    "status" "") "stale_at" ""

/-- Per-row preparation of the persisted rows: default the lifecycle
columns, then canonicalize the link in place. -/
def lifecycleDefaults (r : Rec) : Rec :=
  dsetdefault (dsetdefault (dsetdefault r "is_open" "") "status" "")
    "stale_at" ""

def prepExistingSerper (r : Rec) : Rec :=
  dset (lifecycleDefaults r) "link"
    (canonStr (dget (lifecycleDefaults r) "link"))

/-- Python dict assignment on a keyed table (replace in place / append). -/
def aset (m : List (String × Rec)) (k : String) (v : Rec) :
    List (String × Rec) :=
  match m with
  | [] => [(k, v)]
  | p :: rest => if p.1 = k then (k, v) :: rest else p :: aset rest k v

/-- `existing_by_key = {}` then `existing_by_key[key(row)] = row`. -/
def buildDict (rows : List Rec) (key : Rec → String) : List (String × Rec) :=
  rows.foldl (fun m r => aset m (key r) r) []

/-- `current_links`: canonical links of the truthy-link prepared rows. -/
def currentLinksSerper (newRows : List Rec) : List String :=
  (newRows.map prepNewSerper).filterMap (fun r =>
    if dget r "link" ≠ "" then some (canonStr (dget r "link")) else none)

/-- `str.lower()` (ASCII model, computable by the kernel). -/
def strLower (s : String) : String := String.mk (s.toList.map Char.toLower)

/-- The stale transition of the search-driven reconciler: set
`status = "stale"`, force `is_open` to `"false"` when present and not
already lowercase-false, stamp `stale_at = now`. -/
def markStaleSerper (now : String) (current : List String)
    (p : String × Rec) : Rec :=
  if p.1 ≠ "" ∧ ¬current.contains p.1 = true then
    dset
      (if dmem (dset p.2 "status" "stale") "is_open" = true ∧
          strLower (dget (dset p.2 "status" "stale") "is_open") ≠ "false"
        then dset (dset p.2 "status" "stale") "is_open" "false"
        else dset p.2 "status" "stale")
      "stale_at" now
  else p.2

/-- Append-only new rows of the search-driven reconciler. -/
def appendNewSerper (exKeys : List String) (newRows : List Rec) : List Rec :=
  (newRows.map prepNewSerper).filterMap (fun rr =>
    if dget rr "link" ≠ "" ∧ ¬exKeys.contains (dget rr "link") = true then
      some (dset (dset rr "status" "active") "stale_at" "")
    else none)

/-- `upsert_and_mark_stale` of `app.py`: the `merged_rows` list that the
function writes back. -/
def upsert_serper (existing newRows : List Rec) (now : String) : List Rec :=
  (buildDict (existing.map prepExistingSerper) (fun r => dget r "link")).map
      (markStaleSerper now
        (currentLinksSerper newRows)) ++
    appendNewSerper
      ((buildDict (existing.map prepExistingSerper)
        (fun r => dget r "link")).map (·.1)) newRows

/-- `current_ids`: ids of the rows whose `id` key is present. -/
def currentIdsRisk (newRows : List Rec) : List String :=
  newRows.filterMap (fun r =>
    if dmem r "id" = true then some (dget r "id") else none)

/-- The stale transition of the board-API reconciler (the loop re-runs
`ensure_schema` on each stored row first). -/
def markStaleRisk (now : String) (current : List String)
    (p : String × Rec) : Rec :=
  if p.1 ≠ "" ∧ ¬current.contains p.1 = true then
    dset (dset (ensure_schema_risk p.2) "status" "stale") "stale_at" now
  else ensure_schema_risk p.2

def appendNewRisk (exKeys : List String) (newRows : List Rec) : List Rec :=
  newRows.filterMap (fun row =>
    if dget row "id" ≠ "" ∧ ¬exKeys.contains (dget row "id") = true then
      some (dset (dset (ensure_schema_risk row) "status" "active")
        "stale_at" "")
    else none)

/-- The in-memory `merged` list of the board-API reconciler. -/
def upsert_risk_rows (existing newRows : List Rec) (now : String) :
    List Rec :=
  (buildDict (existing.map ensure_schema_risk) (fun r => dget r "id")).map
      (markStaleRisk now (currentIdsRisk newRows)) ++
    appendNewRisk
      ((buildDict (existing.map ensure_schema_risk)
        (fun r => dget r "id")).map (·.1)) newRows

/-- The fixed-column CSV write: `{k: r.get(k, "") for k in FIELDS}`. -/
def projRisk (r : Rec) : Rec := riskCols.map (fun k => (k, dget r k))

/-- `upsert_and_mark_stale` of `riskified_scraper.py`: the persisted
table. -/
def upsert_risk (existing newRows : List Rec) (now : String) : List Rec :=
  (upsert_risk_rows existing newRows now).map projRisk

/-! ## Cross-source merge (`merge_job_csvs`, `merged_jobs.py`)

A DataFrame is a column list plus rows (missing cells read back as `""`).
`pd.read_csv` is the `load` parameter; `html.unescape` / NFKC enter as the
usual function parameters of the normalizer.  The `INPUT_GLOBS` patterns
are literal filenames, so `glob.glob pattern` returns the pattern iff the
file exists. -/

structure Frame where
  cols : List String
  rows : List Rec

/-- The configured source order of `merged_jobs.py`. -/
def INPUT_GLOBS : List String :=
  ["jobs_serper.csv", "riskified_ds_jobs.csv", "similarweb_ds_jobs.csv",
   "taboola_ds_jobs.csv", "melio_ds_jobs.csv"]

/-- `glob.glob` on a literal filename pattern. -/
def glob_glob (avail : List String) (pattern : String) : List String :=
  if avail.contains pattern then [pattern] else []

/-- `dict.fromkeys`: drop later duplicates, keep first-occurrence order. -/
def dedupFirst : List String → List String → List String
  | _, [] => []
  | seen, x :: xs =>
    if seen.contains x then dedupFirst seen xs
    else x :: dedupFirst (x :: seen) xs

/-- Code-point lexicographic `<=` on character lists (Python string
order). -/
def lexLe : List Char → List Char → Bool
  | [], _ => true
  | _ :: _, [] => false
  | a :: as, b :: bs =>
    if a.toNat < b.toNat then true
    else if a.toNat = b.toNat then lexLe as bs
    else false

def insertLe (x : String) : List String → List String
  | [] => [x]
  | y :: ys =>
    if lexLe x.toList y.toList then x :: y :: ys else y :: insertLe x ys

/-- `sorted` on strings (insertion sort, lexicographic). -/
def sortStrings : List String → List String
  | [] => []
  | x :: xs => insertLe x (sortStrings xs)

/-- `files = sorted(list(dict.fromkeys(files)))` over the glob results. -/
def collectFiles (avail : List String) (input_globs : List String) :
    List String :=
  sortStrings (dedupFirst [] ((input_globs.map (glob_glob avail)).flatten))

/-- `sub in s` on character lists. -/
def hasSub (sub : List Char) : List Char → Bool
  | [] => sub.isEmpty
  | c :: rest => sub.isPrefixOf (c :: rest) || hasSub sub rest

def infer_origin_from_filename (fname : String) : String :=
  let base := strLower fname
  if hasSub "serper".toList base.toList then "LinkedIn via Serper"
  else if hasSub "riskified".toList base.toList then "Riskified Careers"
  else if hasSub "similarweb".toList base.toList then "SimilarWeb Careers"
  else if hasSub "taboola".toList base.toList then "Taboola Careers"
  else if hasSub "melio".toList base.toList then "Melio Careers"
  else base

/-- The merge-layer normalizer on string values. -/
def normStrMerged (unescape nfkc : List Char → List Char) (s : String) :
    String :=
  String.mk (normalize_text_merged unescape nfkc (some s.toList))

/-- The text columns normalized per input frame. -/
def normColsMerged : List String :=
  ["title", "company", "location", "link", "date_posted", "source"]

/-- Per-file processing of `merge_job_csvs`: stamp `origin_file`, default
`source` from the filename when missing or all-empty, normalize the common
text columns, and add `link_canonical`. -/
def processFile (unescape nfkc : List Char → List Char)
    (load : String → Frame) (fp : String) : Frame :=
  let f := load fp
  let cols1 := if f.cols.contains "origin_file" then f.cols
    else f.cols ++ ["origin_file"]
  let rows1 := f.rows.map (fun r => dset r "origin_file" fp)
  let needSrc : Bool := !(f.cols.contains "source") ||
    rows1.all (fun r => dget r "source" == "")
  let cols2 := if needSrc && !(cols1.contains "source") then
    cols1 ++ ["source"] else cols1
  let rows2 := if needSrc then
    rows1.map (fun r => dset r "source" (infer_origin_from_filename fp))
    else rows1
  let rows3 := normColsMerged.foldl (fun rs c =>
    if cols2.contains c then
      rs.map (fun r => dset r c (normStrMerged unescape nfkc (dget r c)))
    else rs) rows2
  let cols4 := if cols2.contains "link_canonical" then cols2
    else cols2 ++ ["link_canonical"]
  let rows4 := if cols2.contains "link" then
    rows3.map (fun r => dset r "link_canonical" (canonStr (dget r "link")))
    else rows3.map (fun r => dset r "link_canonical" "")
  ⟨cols4, rows4⟩

/-- `pd.concat(frames, ignore_index=True, sort=False)`: columns in order of
first appearance, rows appended. -/
def concatFrames (fs : List Frame) : Frame :=
  ⟨fs.foldl (fun acc f => acc ++ f.cols.filter (fun c => !acc.contains c)) [],
   (fs.map (·.rows)).flatten⟩

/-- The `__dedup_key` of a merged row: `link_canonical`, falling back to
lowercased `title||company||location` when empty. -/
def dedupKeyRow (r : Rec) : String :=
  if dget r "link_canonical" = "" then
    strLower (dget r "title") ++ "||" ++ strLower (dget r "company")
      ++ "||" ++ strLower (dget r "location")
  else dget r "link_canonical"

/-- `drop_duplicates(subset=["__dedup_key"], keep="first")`. -/
def dropDupFirst (key : Rec → String) : List String → List Rec → List Rec
  | _, [] => []
  | seen, r :: rest =>
    if seen.contains (key r) then dropDupFirst key seen rest
    else r :: dropDupFirst key (key r :: seen) rest

def preferredCols : List String :=
  ["id", "title", "company", "location", "date_posted",
   "is_open", "status", "stale_at",
   "source", "origin_file", "link", "link_canonical",
   "About Us", "About the Role", wybdCol,
   "Qualifications", "Life at", "In the News",
   "raw_description_html", "scraped_at"]

/-- Preferred columns first, then the remaining ones, `__dedup_key`
dropped. -/
def finalCols (cols : List String) : List String :=
  preferredCols.filter (fun c => cols.contains c) ++
    cols.filter (fun c => !(preferredCols.contains c) &&
      !(c == "__dedup_key"))

def projColsRec (cols : List String) (r : Rec) : Rec :=
  cols.map (fun c => (c, dget r c))

/-- `merge_job_csvs`: collect and re-sort the files, process each, concat,
dedup keep-first on `__dedup_key`, and reorder/drop columns. -/
def merge_job_csvs (unescape nfkc : List Char → List Char)
    (avail : List String) (load : String → Frame)
    (input_globs : List String) : Frame :=
  let files := collectFiles avail input_globs
  let frames := files.map (processFile unescape nfkc load)
  let merged := concatFrames frames
  let keyed := merged.rows.map (fun r =>
    dset r "__dedup_key" (dedupKeyRow r))
  let deduped := dropDupFirst (fun r => dget r "__dedup_key") [] keyed
  let cols := finalCols (merged.cols ++ ["__dedup_key"])
  ⟨cols, deduped.map (projColsRec cols)⟩

/-- Two-source failing input for C2: both persisted tables list the same
canonical job link with different titles; `riskified_ds_jobs.csv` precedes
`melio_ds_jobs.csv` in `INPUT_GLOBS`. -/
def c2Load : String → Frame := fun fp =>
  if fp = "riskified_ds_jobs.csv" then
    ⟨["title", "link", "source"],
     [[("title", "Risk DS"),
       ("link", "https://www.linkedin.com/jobs/view/99"),
       ("source", "Riskified Careers")]]⟩
  else if fp = "melio_ds_jobs.csv" then
    ⟨["title", "link", "source"],
     [[("title", "Melio DS"),
       ("link", "https://www.linkedin.com/jobs/view/99/"),
       ("source", "Melio Careers")]]⟩
  else ⟨[], []⟩

/-! ## Theorems -/

/-! ### Canonicalizer lemmas -/

theorem findGroupAfter_spec {t g : List Char} (h : findGroupAfter t = some g) :
    g ≠ [] ∧ ∀ c ∈ g, c.isDigit := by
  induction t with
  | nil => simp [findGroupAfter] at h
  | cons c rest ih =>
    by_cases hd : c.isDigit
    · simp only [findGroupAfter, hd, if_true, Option.some.injEq] at h
      subst h
      constructor
      · simp [List.takeWhile, hd]
      · intro x hx
        exact List.mem_takeWhile_imp hx
    · by_cases hw : isLinkWordChar c
      · simp only [findGroupAfter, hd, hw, if_false, if_true] at h
        exact ih h
      · simp [findGroupAfter, hd, hw] at h

theorem searchJobsView_spec {s g : List Char} (h : searchJobsView s = some g) :
    g ≠ [] ∧ ∀ c ∈ g, c.isDigit := by
  induction s with
  | nil => simp [searchJobsView] at h
  | cons c rest ih =>
    rw [searchJobsView] at h
    cases htry : tryJobsView (c :: rest) with
    | some g' =>
      rw [htry] at h
      cases h
      unfold tryJobsView at htry
      by_cases hp : jobsViewLit.isPrefixOf (c :: rest)
      · rw [if_pos hp] at htry
        exact findGroupAfter_spec htry
      · rw [if_neg hp] at htry
        exact absurd htry (by simp)
    | none =>
      rw [htry] at h
      exact ih h

theorem takeWhile_digits_append {l : List Char} (h : ∀ c ∈ l, c.isDigit) :
    (l ++ ['/']).takeWhile Char.isDigit = l := by
  induction l with
  | nil => simp [List.takeWhile]
  | cons c rest ih =>
    have hc : c.isDigit := h c (by simp)
    have hrest : ∀ x ∈ rest, x.isDigit := fun x hx => h x (by simp [hx])
    simp [List.takeWhile, hc, ih hrest]

theorem findGroupAfter_digits {g : List Char} (hne : g ≠ [])
    (hdig : ∀ c ∈ g, c.isDigit) : findGroupAfter (g ++ ['/']) = some g := by
  cases g with
  | nil => exact absurd rfl hne
  | cons c rest =>
    have hc : c.isDigit := hdig c (by simp)
    have ht : ((c :: rest) ++ ['/']).takeWhile Char.isDigit = c :: rest :=
      takeWhile_digits_append hdig
    show findGroupAfter (c :: (rest ++ ['/'])) = some (c :: rest)
    rw [findGroupAfter, if_pos hc]
    simp only [List.cons_append] at ht
    rw [ht]

theorem isPrefixOf_append_self (l t : List Char) :
    l.isPrefixOf (l ++ t) = true := by
  induction l with
  | nil => simp [List.isPrefixOf]
  | cons c rest ih => simp [List.isPrefixOf, ih]

theorem tryJobsView_lit (t : List Char) :
    tryJobsView (jobsViewLit ++ t) = findGroupAfter t := by
  unfold tryJobsView
  rw [isPrefixOf_append_self]
  simp only [if_true]
  rfl

theorem searchJobsView_cons_fail {c : Char} {rest : List Char}
    (h : tryJobsView (c :: rest) = none) :
    searchJobsView (c :: rest) = searchJobsView rest := by
  rw [searchJobsView, h]

theorem searchJobsView_lit {t g : List Char} (h : findGroupAfter t = some g) :
    searchJobsView (jobsViewLit ++ t) = some g := by
  have htry : tryJobsView ('/' :: ("jobs/view/".toList ++ t)) = some g := by
    have := tryJobsView_lit t
    rw [h] at this
    exact this
  show searchJobsView ('/' :: ("jobs/view/".toList ++ t)) = some g
  rw [searchJobsView, htry]

theorem searchJobsView_canonical {g : List Char} (hne : g ≠ [])
    (hdig : ∀ c ∈ g, c.isDigit) :
    searchJobsView (canonHead ++ (g ++ ['/'])) = some g := by
  have hlit : searchJobsView (jobsViewLit ++ (g ++ ['/'])) = some g :=
    searchJobsView_lit (findGroupAfter_digits hne hdig)
  -- the 24 leading characters of the canonical head fail the pattern attempt
  -- definitionally (the first or second character comparison already fails),
  -- so both sides reduce to the same scan state
  exact hlit

/-- Idempotence of the canonicalizer, shared by several developments below. -/
theorem canon_idem (u : List Char) :
    canonicalize_job_link (canonicalize_job_link u) = canonicalize_job_link u := by
  by_cases hu : u = []
  · simp [canonicalize_job_link, hu]
  · cases hs : searchJobsView u with
    | none =>
      have hinner : canonicalize_job_link u = u := by
        rw [canonicalize_job_link, if_neg hu, hs]
      rw [hinner]
      exact hinner
    | some g =>
      have hinner : canonicalize_job_link u = canonHead ++ (g ++ ['/']) := by
        rw [canonicalize_job_link, if_neg hu, hs]
      obtain ⟨hne, hdig⟩ := searchJobsView_spec hs
      have hres_ne : canonHead ++ (g ++ ['/']) ≠ [] := by
        simp [canonHead]
      rw [hinner, canonicalize_job_link, if_neg hres_ne,
        searchJobsView_canonical hne hdig]

theorem canonStr_idem (s : String) : canonStr (canonStr s) = canonStr s := by
  unfold canonStr
  have : (String.mk (canonicalize_job_link s.toList)).toList =
      canonicalize_job_link s.toList := rfl
  rw [this, canon_idem]

/-! ### Dict lemmas -/

theorem dget_dset_same (r : List (String × String)) (k v : String) :
    dget (dset r k v) k = v := by
  induction r with
  | nil => simp [dset, dget]
  | cons p rest ih =>
    by_cases h : p.1 = k
    · simp [dset, dget, h]
    · simp [dset, dget, h, ih]

theorem dget_dset_ne (r : List (String × String)) {k k' : String} (v : String)
    (h : k' ≠ k) : dget (dset r k v) k' = dget r k' := by
  have hkk : ¬k = k' := fun hh => h hh.symm
  induction r with
  | nil => simp [dset, dget, hkk]
  | cons p rest ih =>
    by_cases hp : p.1 = k
    · have hpk' : ¬p.1 = k' := by rw [hp]; exact hkk
      rw [dset, if_pos hp, dget, if_neg hkk, dget, if_neg hpk']
    · rw [dset, if_neg hp]
      by_cases hp' : p.1 = k'
      · rw [dget, if_pos hp', dget, if_pos hp']
      · rw [dget, if_neg hp', dget, if_neg hp', ih]

theorem dset_self {r : List (String × String)} {k : String}
    (hmem : dmem r k = true) : dset r k (dget r k) = r := by
  induction r with
  | nil => simp [dmem] at hmem
  | cons p rest ih =>
    by_cases hp : p.1 = k
    · rw [dget, if_pos hp, dset, if_pos hp, ← hp]
    · have hmem' : dmem rest k = true := by
        simpa [dmem, hp] using hmem
      rw [dget, if_neg hp, dset, if_neg hp, ih hmem']

theorem dsetdefault_of_dmem {r : List (String × String)} {k : String}
    (hmem : dmem r k = true) (v : String) : dsetdefault r k v = r := by
  simp [dsetdefault, hmem]

theorem dget_of_dmem_false {r : List (String × String)} {k : String}
    (hmem : dmem r k = false) : dget r k = "" := by
  induction r with
  | nil => rfl
  | cons p rest ih =>
    have hp : ¬p.1 = k := by
      intro hh
      simp [dmem, hh] at hmem
    have hmemr : dmem rest k = false := by
      simpa [dmem, hp] using hmem
    rw [dget, if_neg hp, ih hmemr]

theorem dget_append_left {r r' : List (String × String)} {k : String}
    (hmem : dmem r k = true) : dget (r ++ r') k = dget r k := by
  induction r with
  | nil => simp [dmem] at hmem
  | cons p rest ih =>
    by_cases hp : p.1 = k
    · rw [List.cons_append, dget, if_pos hp, dget, if_pos hp]
    · have hmemr : dmem rest k = true := by
        simpa [dmem, hp] using hmem
      rw [List.cons_append, dget, if_neg hp, dget, if_neg hp, ih hmemr]

theorem dget_append_right {r r' : List (String × String)} {k : String}
    (hmem : dmem r k = false) : dget (r ++ r') k = dget r' k := by
  induction r with
  | nil => simp
  | cons p rest ih =>
    have hp : ¬p.1 = k := by
      intro hh
      simp [dmem, hh] at hmem
    have hmemr : dmem rest k = false := by
      simpa [dmem, hp] using hmem
    rw [List.cons_append, dget, if_neg hp, ih hmemr]

theorem dmem_append (r r' : List (String × String)) (k : String) :
    dmem (r ++ r') k = (dmem r k || dmem r' k) := by
  induction r with
  | nil => simp [dmem]
  | cons p rest ih =>
    rw [List.cons_append, dmem, dmem, ih, Bool.or_assoc]

theorem dget_dsetdefault_empty (r : List (String × String)) (k k' : String) :
    dget (dsetdefault r k "") k' = dget r k' := by
  by_cases hmem : dmem r k = true
  · simp [dsetdefault, hmem]
  · have hmem' : dmem r k = false := by simpa using hmem
    rw [dsetdefault]
    simp only [hmem', Bool.false_eq_true, if_false]
    by_cases hk' : dmem r k' = true
    · rw [dget_append_left hk']
    · have hk'f : dmem r k' = false := by simpa using hk'
      rw [dget_append_right hk'f, dget_of_dmem_false hk'f]
      by_cases hkk : k = k' <;> simp [dget, hkk]

theorem dmem_dset (r : List (String × String)) (k k' : String) (v : String) :
    dmem (dset r k v) k' = (k == k' || dmem r k') := by
  induction r with
  | nil => simp [dset, dmem]
  | cons p rest ih =>
    by_cases hp : p.1 = k
    · rw [dset, if_pos hp, dmem, dmem, hp]
      cases hkk : (k == k') <;> simp [hkk]
    · rw [dset, if_neg hp, dmem, dmem, ih, Bool.or_left_comm]

theorem dmem_dsetdefault (r : List (String × String)) (k k' : String)
    (v : String) : dmem (dsetdefault r k v) k' = (dmem r k' || k == k') := by
  by_cases hmem : dmem r k = true
  · by_cases hk : k = k'
    · simp [dsetdefault, hmem, hk, hk ▸ hmem]
    · simp [dsetdefault, hmem, hk]
  · have hmem' : dmem r k = false := by simpa using hmem
    rw [dsetdefault]
    simp only [hmem', Bool.false_eq_true, if_false]
    rw [dmem_append]
    simp [dmem]

/-! ### Normalizer lemmas -/

theorem mem_collapseGo {c : Char} : ∀ {b : Bool} {l : List Char},
    c ∈ collapseGo b l → c = ' ' ∨ (c ∈ l ∧ isPySpace c = false) := by
  intro b l
  induction l generalizing b with
  | nil => simp [collapseGo]
  | cons d rest ih =>
    intro hmem
    by_cases hd : isPySpace d
    · rw [collapseGo, if_pos hd] at hmem
      cases b with
      | true =>
        rcases ih hmem with h | ⟨hin, hsp⟩
        · exact Or.inl h
        · exact Or.inr ⟨List.mem_cons_of_mem d hin, hsp⟩
      | false =>
        rcases List.mem_cons.mp hmem with h | h
        · exact Or.inl h
        · rcases ih h with h' | ⟨hin, hsp⟩
          · exact Or.inl h'
          · exact Or.inr ⟨List.mem_cons_of_mem d hin, hsp⟩
    · rw [collapseGo, if_neg hd] at hmem
      rcases List.mem_cons.mp hmem with h | h
      · refine Or.inr ⟨h ▸ List.mem_cons_self d rest, ?_⟩
        subst h
        simpa using hd
      · rcases ih h with h' | ⟨hin, hsp⟩
        · exact Or.inl h'
        · exact Or.inr ⟨List.mem_cons_of_mem d hin, hsp⟩

theorem mem_collapseWs {c : Char} {l : List Char} (h : c ∈ collapseWs l) :
    c = ' ' ∨ (c ∈ l ∧ isPySpace c = false) := mem_collapseGo h

/-- After an open whitespace run the next emitted character is not
whitespace. -/
theorem collapseGo_true_head {l : List Char} {c : Char}
    (h : (collapseGo true l).head? = some c) : isPySpace c = false := by
  induction l with
  | nil => simp [collapseGo] at h
  | cons d rest ih =>
    by_cases hd : isPySpace d
    · rw [collapseGo, if_pos hd] at h
      exact ih h
    · rw [collapseGo, if_neg hd] at h
      simp only [List.head?_cons, Option.some.injEq] at h
      subst h
      simpa using hd

/-- No two consecutive whitespace characters survive the collapse. -/
theorem collapseGo_chain (b : Bool) (l : List Char) :
    (collapseGo b l).Chain'
      (fun a c => isPySpace a = false ∨ isPySpace c = false) := by
  induction l generalizing b with
  | nil => simp [collapseGo]
  | cons d rest ih =>
    by_cases hd : isPySpace d
    · rw [collapseGo, if_pos hd]
      cases b with
      | true => exact ih true
      | false =>
        simp only [Bool.false_eq_true, if_false]
        rw [List.chain'_cons']
        refine ⟨?_, ih true⟩
        intro y hy
        exact Or.inr (collapseGo_true_head hy)
    · rw [collapseGo, if_neg hd]
      rw [List.chain'_cons']
      refine ⟨?_, ih false⟩
      intro y hy
      exact Or.inl (by simpa using hd)

/-- Whatever the collapse emits first is a single space or a non-space
character. -/
theorem collapseWs_head {l : List Char} {c : Char}
    (h : (collapseWs l).head? = some c) : isPySpace c → c = ' ' := by
  intro hsp
  unfold collapseWs at h
  cases l with
  | nil => simp [collapseGo] at h
  | cons d rest =>
    by_cases hd : isPySpace d
    · rw [collapseGo, if_pos hd] at h
      simp only [Bool.false_eq_true, if_false, List.head?_cons,
        Option.some.injEq] at h
      exact h.symm
    · rw [collapseGo, if_neg hd] at h
      simp only [List.head?_cons, Option.some.injEq] at h
      subst h
      simp [hd] at hsp

theorem mem_pstrip {c : Char} {l : List Char} (h : c ∈ pstrip l) : c ∈ l := by
  unfold pstrip at h
  have h1 := List.mem_reverse.mp h
  have h2 := (List.dropWhile_sublist isPySpace).subset h1
  have h3 := List.mem_reverse.mp h2
  exact (List.dropWhile_sublist isPySpace).subset h3

theorem mem_removeCtl {c : Char} {l : List Char} (h : c ∈ removeCtl l) :
    c ∈ l ∧ (isCtlChar c = false ∨ c = '\n' ∨ c = '\t') := by
  unfold removeCtl at h
  have h1 := List.mem_filter.mp h
  refine ⟨h1.1, ?_⟩
  have h2 := h1.2
  simp only [Bool.or_eq_true, Bool.not_eq_true', beq_iff_eq] at h2
  tauto

theorem head_dropWhile {p : Char → Bool} {l : List Char} {c : Char}
    (h : (l.dropWhile p).head? = some c) : p c = false := by
  induction l with
  | nil => simp [List.dropWhile] at h
  | cons d rest ih =>
    by_cases hd : p d
    · rw [List.dropWhile_cons_of_pos hd] at h
      exact ih h
    · rw [List.dropWhile_cons_of_neg hd] at h
      simp only [List.head?_cons, Option.some.injEq] at h
      subst h
      simpa using hd

theorem getLast?_dropWhile {p : Char → Bool} {l : List Char}
    (h : l.dropWhile p ≠ []) : (l.dropWhile p).getLast? = l.getLast? := by
  induction l with
  | nil => simp at h
  | cons d rest ih =>
    by_cases hd : p d
    · rw [List.dropWhile_cons_of_pos hd] at h ⊢
      rw [ih h]
      cases rest with
      | nil => simp [List.dropWhile] at h
      | cons e t => rw [List.getLast?_cons_cons]
    · rw [List.dropWhile_cons_of_neg hd]

theorem chain_noWsPair_reverse {l : List Char} (h : l.Chain' noWsPair) :
    l.reverse.Chain' noWsPair :=
  List.chain'_reverse.mpr (h.imp fun _ _ hab => Or.symm hab)

theorem chain_noWsPair_pstrip {l : List Char} (h : l.Chain' noWsPair) :
    (pstrip l).Chain' noWsPair := by
  unfold pstrip
  have h1 : (l.dropWhile isPySpace).Chain' noWsPair :=
    h.suffix (List.dropWhile_suffix isPySpace)
  have h2 := chain_noWsPair_reverse h1
  have h3 : ((l.dropWhile isPySpace).reverse.dropWhile isPySpace).Chain' noWsPair :=
    h2.suffix (List.dropWhile_suffix isPySpace)
  exact chain_noWsPair_reverse h3

theorem pstrip_head {l : List Char} {c : Char}
    (h : (pstrip l).head? = some c) : isPySpace c = false := by
  unfold pstrip at h
  set X := (l.dropWhile isPySpace).reverse.dropWhile isPySpace with hX
  have hne : X ≠ [] := by
    intro hnil
    rw [hnil] at h
    simp at h
  rw [List.head?_reverse] at h
  rw [hX, getLast?_dropWhile (hX ▸ hne), List.getLast?_reverse] at h
  exact head_dropWhile h

theorem pstrip_getLast {l : List Char} {c : Char}
    (h : (pstrip l).getLast? = some c) : isPySpace c = false := by
  unfold pstrip at h
  rw [List.getLast?_reverse] at h
  exact head_dropWhile h

theorem pstrip_collapse_trimmed (x : List Char) :
    TrimmedCollapsed (pstrip (collapseWs x)) := by
  refine ⟨?_, ?_, ?_, ?_⟩
  · intro c hc hsp
    rcases mem_collapseWs (mem_pstrip hc) with h | ⟨_, hns⟩
    · exact h
    · rw [hsp] at hns
      cases hns
  · exact chain_noWsPair_pstrip (collapseGo_chain false x)
  · intro c hc
    exact pstrip_head hc
  · intro c hc
    exact pstrip_getLast hc

theorem trimmedCollapsed_nil : TrimmedCollapsed [] := by
  refine ⟨?_, ?_, ?_, ?_⟩ <;> simp

theorem normalize_app_shape (u n : List Char → List Char)
    (s : Option (List Char)) :
    TrimmedCollapsed (normalize_text_app u n s) := by
  cases s with
  | none => exact trimmedCollapsed_nil
  | some l =>
    by_cases hl : l = []
    · simp only [normalize_text_app, hl, if_true]
      exact trimmedCollapsed_nil
    · simp only [normalize_text_app, hl, if_false]
      exact pstrip_collapse_trimmed _

theorem normalize_app_no_ctl (u n : List Char → List Char)
    (s : Option (List Char)) {c : Char}
    (h : c ∈ normalize_text_app u n s) : isCtlChar c = false := by
  cases s with
  | none => simp [normalize_text_app] at h
  | some l =>
    by_cases hl : l = []
    · simp [normalize_text_app, hl] at h
    · simp only [normalize_text_app, hl, if_false] at h
      rcases mem_collapseWs (mem_pstrip h) with hsp | ⟨hin, hns⟩
      · subst hsp
        decide
      · rcases (mem_removeCtl hin).2 with hctl | hnl | htab
        · exact hctl
        · subst hnl
          simp [isPySpace] at hns
        · subst htab
          simp [isPySpace] at hns

theorem normalize_merged_shape (u n : List Char → List Char)
    (s : Option (List Char)) :
    TrimmedCollapsed (normalize_text_merged u n s) := by
  cases s with
  | none => exact trimmedCollapsed_nil
  | some l => exact pstrip_collapse_trimmed _

/-- C8 (amended): both normalizers are pure total functions that collapse
whitespace runs to single spaces and trim, mapping `None` (and, for the
app variant, the empty string) to the empty string; the app-variant
normalizer (`app.py`) additionally removes non-printable control characters
while preserving newline and tab before collapsing, so its output is
control-free, while the merge-layer normalizer (`merged_jobs.py`) has no
control-character removal step.  The entity-decoding and NFKC stages are
external library calls, quantified here as arbitrary functions. -/
theorem spec_C8_normalizer_shape :
    (∀ u n : List Char → List Char,
      normalize_text_app u n none = [] ∧
      normalize_text_app u n (some []) = [] ∧
      normalize_text_merged u n none = []) ∧
    (∀ u n s, TrimmedCollapsed (normalize_text_app u n s)) ∧
    (∀ u n s c, c ∈ normalize_text_app u n s → isCtlChar c = false) ∧
    (∀ u n s, TrimmedCollapsed (normalize_text_merged u n s)) := by
  refine ⟨?_, normalize_app_shape, ?_, normalize_merged_shape⟩
  · intro u n
    exact ⟨rfl, rfl, rfl⟩
  · intro u n s c h
    exact normalize_app_no_ctl u n s h

/-- Witness for C8's hypothesised conjunct at a concrete input. -/
theorem spec_C8_normalizer_shape_witness : isCtlChar 'a' = false :=
  spec_C8_normalizer_shape.2.2.1 id id (some ['a']) 'a' (by decide)

/-- C8 counterexample: the merge-layer `normalize_text` keeps the BEL
control character `\x07`, contradicting the claimed control-character
removal.  `html.unescape` and NFKC are identity on this ASCII input, so
they are instantiated with `id`. -/
theorem spec_C8_counterexample :
    normalize_text_merged id id (some ['a', Char.ofNat 7, 'b']) =
      ['a', Char.ofNat 7, 'b'] ∧
    isCtlChar (Char.ofNat 7) = true ∧
    normalize_text_app id id (some ['a', Char.ofNat 7, 'b']) = ['a', 'b'] := by
  decide

/-- C9: `load_csv_any` tries `utf-8-sig`, `utf-8`, `cp1255` in that fixed
order, returns the first successful parse without attempting later
candidates (the attempt trace stops at the first success), and when every
candidate fails it propagates the underlying (last) decode error instead
of returning a value. -/
theorem spec_C9_load_csv_any {E D : Type} (read : String → Except E D) :
    (∀ v, read "utf-8-sig" = Except.ok v →
      load_csv_any read = (Except.ok v, ["utf-8-sig"])) ∧
    (∀ e1 v, read "utf-8-sig" = Except.error e1 → read "utf-8" = Except.ok v →
      load_csv_any read = (Except.ok v, ["utf-8-sig", "utf-8"])) ∧
    (∀ e1 e2 v, read "utf-8-sig" = Except.error e1 →
      read "utf-8" = Except.error e2 → read "cp1255" = Except.ok v →
      load_csv_any read = (Except.ok v, ENCODINGS)) ∧
    (∀ e1 e2 e3, read "utf-8-sig" = Except.error e1 →
      read "utf-8" = Except.error e2 → read "cp1255" = Except.error e3 →
      load_csv_any read = (Except.error (some e3), ENCODINGS)) := by
  refine ⟨?_, ?_, ?_, ?_⟩
  · intro v h1
    simp [load_csv_any, ENCODINGS, tryEncodings, h1]
  · intro e1 v h1 h2
    simp [load_csv_any, ENCODINGS, tryEncodings, h1, h2]
  · intro e1 e2 v h1 h2 h3
    simp [load_csv_any, ENCODINGS, tryEncodings, h1, h2, h3]
  · intro e1 e2 e3 h1 h2 h3
    simp [load_csv_any, ENCODINGS, tryEncodings, h1, h2, h3]

/-- Witness for C9 at a concrete reader: the third candidate succeeds after
the first two fail, and the trace shows all three attempts. -/
theorem spec_C9_load_csv_any_witness :
    load_csv_any demoRead = (Except.ok 7, ENCODINGS) :=
  (spec_C9_load_csv_any demoRead).2.2.1 "bom boom" "utf8 boom" 7 rfl rfl rfl

/-! ### Minimum lemmas -/

theorem foldl_min_mem (v : Nat) (vs : List Nat) :
    vs.foldl min v ∈ v :: vs := by
  induction vs generalizing v with
  | nil => simp
  | cons w ws ih =>
    have h := ih (min v w)
    rcases List.mem_cons.mp h with h' | h'
    · rw [List.foldl_cons, h', min_def]
      split_ifs <;> simp
    · rw [List.foldl_cons]
      exact List.mem_cons_of_mem v (List.mem_cons_of_mem w h')

theorem foldl_min_le (v : Nat) (vs : List Nat) :
    ∀ w ∈ v :: vs, vs.foldl min v ≤ w := by
  induction vs generalizing v with
  | nil =>
    intro w hw
    rcases List.mem_cons.mp hw with h | h
    · simp [h]
    · simp at h
  | cons u us ih =>
    intro w hw
    rw [List.foldl_cons]
    rcases List.mem_cons.mp hw with h | h
    · subst h
      calc us.foldl min (min w u) ≤ min w u :=
            ih (min w u) _ (List.mem_cons_self _ _)
        _ ≤ w := min_le_left _ _
    · rcases List.mem_cons.mp h with h' | h'
      · subst h'
        calc us.foldl min (min v w) ≤ min v w :=
              ih (min v w) _ (List.mem_cons_self _ _)
          _ ≤ w := min_le_right _ _
      · exact ih (min v u) w (List.mem_cons_of_mem _ h')

/-- C4: `extract_years_from_text` collects every integer matched by the
English and Hebrew patterns and returns their minimum; with no match the
result is unknown (`none`, modelling NaN), never zero; the bilingual
example with "3+ years" and "לפחות 5 שנות ניסיון" yields 3. -/
theorem spec_C4_extract_years :
    (∀ t, extract_years_from_text t = none ↔ yearsVals t = []) ∧
    (∀ t v, extract_years_from_text t = some v →
      v ∈ yearsVals t ∧ ∀ w ∈ yearsVals t, v ≤ w) ∧
    extract_years_from_text exC4 = some 3 := by
  refine ⟨?_, ?_, ?_⟩
  · intro t
    by_cases ht : t = []
    · subst ht
      constructor
      · intro _
        rfl
      · intro _
        rfl
    · rw [extract_years_from_text, if_neg ht]
      cases hv : yearsVals t with
      | nil => simp
      | cons v vs => simp
  · intro t v h
    rw [extract_years_from_text] at h
    by_cases ht : t = []
    · rw [if_pos ht] at h
      cases h
    · rw [if_neg ht] at h
      cases hv : yearsVals t with
      | nil =>
        rw [hv] at h
        cases h
      | cons v0 vs =>
        rw [hv] at h
        simp only [Option.some.injEq] at h
        subst h
        exact ⟨hv ▸ foldl_min_mem v0 vs, fun w hw =>
          foldl_min_le v0 vs w (hv ▸ hw)⟩
  · rfl

/-- Witness for C4 at the bilingual example: the returned 3 is a matched
value and is minimal among all matched values. -/
theorem spec_C4_extract_years_witness :
    3 ∈ yearsVals exC4 ∧ ∀ w ∈ yearsVals exC4, 3 ≤ w :=
  spec_C4_extract_years.2.1 exC4 3 spec_C4_extract_years.2.2

/-- C5: the implementation agrees everywhere with the specified
first-match-wins cascade (title tokens override years, bands partition the
numeric axis, `Mid` with no signal), and in particular "Senior Data
Scientist" with 0.5 years is `Senior` while "Data Scientist" with 6 years
is `Senior`. -/
theorem spec_C5_seniority_cascade :
    (∀ t y, seniority_bucket t y = seniority_spec_cascade t y) ∧
    seniority_bucket "Senior Data Scientist".toList (some (1 / 2)) = "Senior" ∧
    seniority_bucket "Data Scientist".toList (some 6) = "Senior" := by
  refine ⟨?_, by decide, by decide⟩
  intro t y
  unfold seniority_bucket seniority_spec_cascade
  cases hm : hasAnyToken (t.map Char.toLower) mgrTokens
  · cases hl : hasAnyToken (t.map Char.toLower) leadTokens
    · cases hj : hasAnyToken (t.map Char.toLower) jrTokens
      · cases hs : hasSeniorSignal (t.map Char.toLower)
        · simp only [hm, hl, hj, hs, Bool.false_eq_true, if_false]
          cases y with
          | none => rfl
          | some q =>
            show (if q ≤ 1 then "Junior/Entry"
                else if 1 < q ∧ q < 5 then "Mid"
                else if 5 ≤ q ∧ q < 8 then "Senior"
                else if 8 ≤ q then "Lead/Principal" else "Mid") =
              (if q ≤ 1 then "Junior/Entry"
                else if q < 5 then "Mid"
                else if q < 8 then "Senior" else "Lead/Principal")
            by_cases hy1 : q ≤ 1
            · rw [if_pos hy1, if_pos hy1]
            · rw [if_neg hy1, if_neg hy1]
              have h1q : 1 < q := not_le.mp hy1
              by_cases hy5 : q < 5
              · rw [if_pos ⟨h1q, hy5⟩, if_pos hy5]
              · have hc2 : ¬(1 < q ∧ q < 5) := fun hc => hy5 hc.2
                rw [if_neg hc2, if_neg hy5]
                have h5q : 5 ≤ q := not_lt.mp hy5
                by_cases hy8 : q < 8
                · rw [if_pos ⟨h5q, hy8⟩, if_pos hy8]
                · have hc3 : ¬(5 ≤ q ∧ q < 8) := fun hc => hy8 hc.2
                  rw [if_neg hc3, if_neg hy8, if_pos (not_lt.mp hy8)]
        · simp only [hm, hl, hj, hs, Bool.false_eq_true, if_false, if_true]
      · simp only [hm, hl, hj, Bool.false_eq_true, if_false, if_true]
    · simp only [hm, hl, Bool.false_eq_true, if_false, if_true]
  · simp only [hm, if_true]

/-! ### Splitter lemmas -/

theorem litAt_nil_of_ne {a : List Char} (h : a ≠ []) : litAt a [] = none := by
  cases a with
  | nil => exact absurd rfl h
  | cons p ps => rfl

theorem firstSome_cons {α β : Type} (f : α → Option β) (a : α)
    (as : List α) :
    firstSome (a :: as) f =
      match f a with
      | some b => some b
      | none => firstSome as f := rfl

theorem altMatchLen_nil {alts : List (List Char)}
    (hne : ∀ a ∈ alts, a ≠ []) : altMatchLen alts [] = none := by
  induction alts with
  | nil => rfl
  | cons a as ih =>
    have h1 : litAt a [] = none := litAt_nil_of_ne (hne a (by simp))
    have h2 := ih (fun x hx => hne x (by simp [hx]))
    unfold altMatchLen
    rw [firstSome_cons, h1]
    exact h2

theorem finditerStarts_eq_nil_iff {alts : List (List Char)}
    (hne : ∀ a ∈ alts, a ≠ []) :
    ∀ (fuel : Nat) (t : List Char) (pos : Nat), t.length ≤ fuel →
    (finditerStarts alts fuel pos t = [] ↔
      ∀ i, altMatchLen alts (t.drop i) = none) := by
  intro fuel
  induction fuel with
  | zero =>
    intro t pos hlen
    have ht : t = [] := List.length_eq_zero.mp (Nat.le_zero.mp hlen)
    subst ht
    simp only [finditerStarts, List.drop_nil, true_iff]
    intro i
    exact altMatchLen_nil hne
  | succ fuel ih =>
    intro t pos hlen
    cases t with
    | nil =>
      simp only [finditerStarts, List.drop_nil, true_iff]
      intro i
      exact altMatchLen_nil hne
    | cons c rest =>
      have hrest : rest.length ≤ fuel := Nat.le_of_succ_le_succ hlen
      cases hm : altMatchLen alts (c :: rest) with
      | some len =>
        rw [finditerStarts, hm]
        constructor
        · intro h
          cases h
        · intro h
          have := h 0
          rw [List.drop_zero] at this
          rw [this] at hm
          cases hm
      | none =>
        rw [finditerStarts, hm]
        rw [ih rest (pos + 1) hrest]
        constructor
        · intro h i
          cases i with
          | zero => simpa using hm
          | succ j => simpa using h j
        · intro h i
          have := h (i + 1)
          simpa using this

theorem split_sections_free_fallback {t : List Char}
    (h : anchorHits (cleanSpaceNl t) = []) :
    split_sections_free t = ⟨pstrip (cleanSpaceNl t), [], [], []⟩ := by
  by_cases ht : t = []
  · subst ht
    rfl
  · rw [split_sections_free, if_neg ht, h,
      show sortHits ([] : List (Nat × String)) = [] from rfl, if_pos rfl]

theorem gh2_nomatch {t : List Char} (h : gh2Matches t = []) :
    parse_greenhouse_format2 t = SectionsGh.empty := by
  rw [parse_greenhouse_format2, h]
  rfl

/-- C7 (amended): for `split_sections_free`, when no anchor pattern
matches anywhere in the (whitespace-cleaned) text — an absence
characterised by the per-pattern scan returning no offsets, equivalently
no pattern alternative matching at any offset — the entire cleaned text
(stripped) is assigned to the role-overview section with the other three
sections empty; the similarweb splitter
`parse_greenhouse_to_riskified_format2` instead returns all six sections
empty when none of its keywords occurs, discarding the text. -/
theorem spec_C7_splitter_fallback :
    (∀ (alts : List (List Char)) (fuel : Nat) (t : List Char) (pos : Nat),
      (∀ a ∈ alts, a ≠ []) → t.length ≤ fuel →
      (finditerStarts alts fuel pos t = [] ↔
        ∀ i, altMatchLen alts (t.drop i) = none)) ∧
    (∀ t, anchorHits (cleanSpaceNl t) = [] →
      split_sections_free t = ⟨pstrip (cleanSpaceNl t), [], [], []⟩) ∧
    (∀ t, gh2Matches t = [] →
      parse_greenhouse_format2 t = SectionsGh.empty) := by
  refine ⟨?_, ?_, ?_⟩
  · intro alts fuel t pos hne hlen
    exact finditerStarts_eq_nil_iff hne fuel t pos hlen
  · intro t h
    exact split_sections_free_fallback h
  · intro t h
    exact gh2_nomatch h

/-- Witness for C7's amended statement at a concrete anchor-free text. -/
theorem spec_C7_splitter_fallback_witness :
    split_sections_free "hello and welcome".toList =
      ⟨pstrip (cleanSpaceNl "hello and welcome".toList), [], [], []⟩ :=
  spec_C7_splitter_fallback.2.1 "hello and welcome".toList (by decide)

/-- C7 counterexample: on an anchor-free text the similarweb splitter
(cited by the claim) leaves every section empty — the text is **not**
assigned to the role-overview section. -/
theorem spec_C7_counterexample :
    parse_greenhouse_format2 "hello team".toList = SectionsGh.empty ∧
    (parse_greenhouse_format2 "hello team".toList).aboutRole ≠
      "hello team".toList ∧
    "hello team".toList ≠ [] := by
  decide

/-! ### Record-field calculus -/

theorem dmem_dset_self (r : Rec) (k v : String) :
    dmem (dset r k v) k = true := by
  rw [dmem_dset]
  simp

theorem dmem_dset_mono {r : Rec} {k : String} (k' v : String)
    (h : dmem r k = true) : dmem (dset r k' v) k = true := by
  rw [dmem_dset]
  simp [h]

theorem dmem_dsetdefault_self (r : Rec) (k v : String) :
    dmem (dsetdefault r k v) k = true := by
  rw [dmem_dsetdefault]
  simp

theorem dmem_dsetdefault_mono {r : Rec} {k : String} (k' v : String)
    (h : dmem r k = true) : dmem (dsetdefault r k' v) k = true := by
  rw [dmem_dsetdefault]
  simp [h]

theorem dmem_of_dget_ne {r : Rec} {k : String} (h : dget r k ≠ "") :
    dmem r k = true := by
  by_cases hm : dmem r k = true
  · exact hm
  · exact absurd (dget_of_dmem_false (by simpa using hm)) h

theorem dget_ensureCols (cols : List String) (r : Rec) (k : String) :
    dget (ensureCols cols r) k = dget r k := by
  induction cols generalizing r with
  | nil => rfl
  | cons c cs ih =>
    show dget (ensureCols cs (dsetdefault r c "")) k = dget r k
    rw [ih, dget_dsetdefault_empty]

theorem dmem_ensureCols_mono {r : Rec} {k : String} (cols : List String)
    (h : dmem r k = true) : dmem (ensureCols cols r) k = true := by
  induction cols generalizing r with
  | nil => exact h
  | cons c cs ih =>
    exact ih (dmem_dsetdefault_mono c "" h)

theorem dmem_ensureCols_of_mem {cols : List String} {k : String} (r : Rec)
    (h : k ∈ cols) : dmem (ensureCols cols r) k = true := by
  induction cols generalizing r with
  | nil => simp at h
  | cons c cs ih =>
    rcases List.mem_cons.mp h with h' | h'
    · subst h'
      exact dmem_ensureCols_mono cs (dmem_dsetdefault_self r k "")
    · exact ih (dsetdefault r c "") h'

/-! ### Keyed-dict lemmas -/

theorem aset_of_forall_ne {m : List (String × Rec)} {k : String} (v : Rec)
    (h : ∀ p ∈ m, p.1 ≠ k) : aset m k v = m ++ [(k, v)] := by
  induction m with
  | nil => rfl
  | cons p rest ih =>
    rw [aset, if_neg (h p (List.mem_cons_self _ _)),
      ih (fun q hq => h q (List.mem_cons_of_mem _ hq))]
    rfl

theorem mem_aset {m : List (String × Rec)} {k : String} {v : Rec}
    {p : String × Rec} (h : p ∈ aset m k v) : p = (k, v) ∨ p ∈ m := by
  induction m with
  | nil => simpa [aset] using h
  | cons q rest ih =>
    rw [aset] at h
    by_cases hq : q.1 = k
    · rw [if_pos hq] at h
      rcases List.mem_cons.mp h with h' | h'
      · exact Or.inl h'
      · exact Or.inr (List.mem_cons_of_mem _ h')
    · rw [if_neg hq] at h
      rcases List.mem_cons.mp h with h' | h'
      · exact Or.inr (h' ▸ List.mem_cons_self _ _)
      · rcases ih h' with h'' | h''
        · exact Or.inl h''
        · exact Or.inr (List.mem_cons_of_mem _ h'')

theorem mem_aset_keys {m : List (String × Rec)} {k x : String} {v : Rec}
    (h : x ∈ (aset m k v).map (·.1)) :
    x ∈ m.map (·.1) ∨ x = k := by
  rcases List.mem_map.mp h with ⟨p, hp, hpx⟩
  rcases mem_aset hp with h' | h'
  · subst h'
    exact Or.inr hpx.symm
  · exact Or.inl (hpx ▸ List.mem_map_of_mem _ h')

theorem aset_keys_nodup {m : List (String × Rec)} (k : String) (v : Rec)
    (h : (m.map (·.1)).Nodup) : ((aset m k v).map (·.1)).Nodup := by
  induction m with
  | nil => simp [aset]
  | cons p rest ih =>
    rw [aset]
    by_cases hp : p.1 = k
    · rw [if_pos hp]
      simp only [List.map_cons, List.nodup_cons] at h ⊢
      exact ⟨hp ▸ h.1, h.2⟩
    · rw [if_neg hp]
      simp only [List.map_cons, List.nodup_cons] at h ⊢
      refine ⟨?_, ih h.2⟩
      intro hmem
      rcases mem_aset_keys hmem with h' | h'
      · exact h.1 h'
      · exact hp h'

theorem buildDict_keys_nodup_go (key : Rec → String) :
    ∀ (rows : List Rec) (m : List (String × Rec)),
    (m.map (·.1)).Nodup →
    ((rows.foldl (fun m r => aset m (key r) r) m).map (·.1)).Nodup := by
  intro rows
  induction rows with
  | nil => exact fun m h => h
  | cons r rest ih =>
    intro m h
    exact ih (aset m (key r) r) (aset_keys_nodup (key r) r h)

theorem buildDict_keys_nodup (rows : List Rec) (key : Rec → String) :
    ((buildDict rows key).map (·.1)).Nodup :=
  buildDict_keys_nodup_go key rows [] (by simp)

theorem buildDict_mem_go (key : Rec → String) :
    ∀ (rows : List Rec) (m : List (String × Rec)) (p : String × Rec),
    p ∈ rows.foldl (fun m r => aset m (key r) r) m →
    p ∈ m ∨ (p.2 ∈ rows ∧ key p.2 = p.1) := by
  intro rows
  induction rows with
  | nil => exact fun m p h => Or.inl h
  | cons r rest ih =>
    intro m p h
    rcases ih (aset m (key r) r) p h with h' | h'
    · rcases mem_aset h' with h'' | h''
      · subst h''
        exact Or.inr ⟨List.mem_cons_self _ _, rfl⟩
      · exact Or.inl h''
    · exact Or.inr ⟨List.mem_cons_of_mem _ h'.1, h'.2⟩

/-- Every stored pair of the keyed dict is an input row keyed by its own
key value. -/
theorem buildDict_mem {rows : List Rec} {key : Rec → String}
    {p : String × Rec} (h : p ∈ buildDict rows key) :
    p.2 ∈ rows ∧ key p.2 = p.1 := by
  rcases buildDict_mem_go key rows [] p h with h' | h'
  · simp at h'
  · exact h'

theorem buildDict_eq_map_go (key : Rec → String) :
    ∀ (rows : List Rec) (m : List (String × Rec)),
    (∀ r ∈ rows, ∀ p ∈ m, p.1 ≠ key r) →
    (rows.map key).Nodup →
    rows.foldl (fun m r => aset m (key r) r) m =
      m ++ rows.map (fun r => (key r, r)) := by
  intro rows
  induction rows with
  | nil => simp
  | cons r rest ih =>
    intro m hdis hnd
    have e1 : aset m (key r) r = m ++ [(key r, r)] :=
      aset_of_forall_ne r (fun p hp => hdis r (List.mem_cons_self _ _) p hp)
    show rest.foldl (fun m r => aset m (key r) r) (aset m (key r) r) = _
    rw [e1, ih (m ++ [(key r, r)]) ?_ ?_]
    · simp
    · intro r' hr' p hp
      rcases List.mem_append.mp hp with h' | h'
      · exact hdis r' (List.mem_cons_of_mem _ hr') p h'
      · have : p = (key r, r) := by simpa using h'
        subst this
        simp only [List.map_cons, List.nodup_cons] at hnd
        intro hc
        apply hnd.1
        rw [show key r = key r' from hc]
        exact List.mem_map_of_mem key hr'
    · simp only [List.map_cons, List.nodup_cons] at hnd
      exact hnd.2

/-- With pairwise-distinct keys the dict is just the keyed row list. -/
theorem buildDict_eq_map {rows : List Rec} {key : Rec → String}
    (h : (rows.map key).Nodup) :
    buildDict rows key = rows.map (fun r => (key r, r)) := by
  have := buildDict_eq_map_go key rows [] (by simp) h
  simpa [buildDict] using this

/-- Sublist of `filterMap`s when one selector implies the other. -/
theorem filterMap_sublist_of_imp {α β : Type} {f g : α → Option β}
    (h : ∀ x b, f x = some b → g x = some b) (l : List α) :
    List.Sublist (l.filterMap f) (l.filterMap g) := by
  induction l with
  | nil => simp
  | cons x xs ih =>
    cases hf : f x with
    | some b =>
      rw [List.filterMap_cons, hf, List.filterMap_cons, h x b hf]
      exact ih.cons₂ b
    | none =>
      rw [List.filterMap_cons, hf, List.filterMap_cons]
      cases g x with
      | some c => exact ih.cons c
      | none => exact ih

/-! ### Row-preparation lemmas -/

theorem dget_lifecycleDefaults (r : Rec) (k : String) :
    dget (lifecycleDefaults r) k = dget r k := by
  unfold lifecycleDefaults
  rw [dget_dsetdefault_empty, dget_dsetdefault_empty, dget_dsetdefault_empty]

theorem dmem_lifecycleDefaults_mono {r : Rec} {k : String}
    (h : dmem r k = true) : dmem (lifecycleDefaults r) k = true :=
  dmem_dsetdefault_mono _ _ (dmem_dsetdefault_mono _ _
    (dmem_dsetdefault_mono _ _ h))

theorem dmem_lifecycleDefaults_io (r : Rec) :
    dmem (lifecycleDefaults r) "is_open" = true :=
  dmem_dsetdefault_mono _ _ (dmem_dsetdefault_mono _ _
    (dmem_dsetdefault_self _ _ _))

theorem dmem_lifecycleDefaults_st (r : Rec) :
    dmem (lifecycleDefaults r) "status" = true :=
  dmem_dsetdefault_mono _ _ (dmem_dsetdefault_self _ _ _)

theorem dmem_lifecycleDefaults_sa (r : Rec) :
    dmem (lifecycleDefaults r) "stale_at" = true :=
  dmem_dsetdefault_self _ _ _

theorem dget_prepExistingSerper_link (r : Rec) :
    dget (prepExistingSerper r) "link" = canonStr (dget r "link") := by
  unfold prepExistingSerper
  rw [dget_dset_same, dget_lifecycleDefaults]

theorem dget_prepExistingSerper_ne {k : String} (r : Rec) (h : k ≠ "link") :
    dget (prepExistingSerper r) k = dget r k := by
  unfold prepExistingSerper
  rw [dget_dset_ne _ _ h, dget_lifecycleDefaults]

theorem dmem_prepExistingSerper_mono {r : Rec} {k : String}
    (h : dmem r k = true) : dmem (prepExistingSerper r) k = true :=
  dmem_dset_mono _ _ (dmem_lifecycleDefaults_mono h)

theorem dmem_prepExistingSerper_io (r : Rec) :
    dmem (prepExistingSerper r) "is_open" = true :=
  dmem_dset_mono _ _ (dmem_lifecycleDefaults_io r)

theorem dmem_prepExistingSerper_st (r : Rec) :
    dmem (prepExistingSerper r) "status" = true :=
  dmem_dset_mono _ _ (dmem_lifecycleDefaults_st r)

theorem dmem_prepExistingSerper_sa (r : Rec) :
    dmem (prepExistingSerper r) "stale_at" = true :=
  dmem_dset_mono _ _ (dmem_lifecycleDefaults_sa r)

theorem dmem_prepExistingSerper_link (r : Rec) :
    dmem (prepExistingSerper r) "link" = true :=
  dmem_dset_self _ _ _

theorem prepExistingSerper_fixed {r : Rec} (h1 : dmem r "is_open" = true)
    (h2 : dmem r "status" = true) (h3 : dmem r "stale_at" = true)
    (h4 : dmem r "link" = true)
    (h5 : canonStr (dget r "link") = dget r "link") :
    prepExistingSerper r = r := by
  unfold prepExistingSerper lifecycleDefaults
  rw [dsetdefault_of_dmem h1, dsetdefault_of_dmem h2,
    dsetdefault_of_dmem h3, h5]
  exact dset_self h4

theorem dget_ensureSerper (r : Rec) (k : String) :
    dget (ensure_schema_serper r) k = dget r k :=
  dget_ensureCols serperCols r k

theorem dget_ensureRisk (r : Rec) (k : String) :
    dget (ensure_schema_risk r) k = dget r k :=
  dget_ensureCols riskCols r k

theorem dget_prepNewSerper_link (r : Rec) :
    dget (prepNewSerper r) "link" = canonStr (dget r "link") := by
  unfold prepNewSerper
  rw [dget_dsetdefault_empty, dget_dsetdefault_empty, dget_dset_same,
    dget_ensureSerper]

theorem dget_prepNewSerper_ne {k : String} (r : Rec) (h : k ≠ "link") :
    dget (prepNewSerper r) k = dget r k := by
  unfold prepNewSerper
  rw [dget_dsetdefault_empty, dget_dsetdefault_empty, dget_dset_ne _ _ h,
    dget_ensureSerper]

theorem dmem_prepNewSerper {r : Rec} {k : String} (h : k ∈ serperCols) :
    dmem (prepNewSerper r) k = true := by
  unfold prepNewSerper
  exact dmem_dsetdefault_mono _ _ (dmem_dsetdefault_mono _ _
    (dmem_dset_mono _ _ (dmem_ensureCols_of_mem _ h)))

theorem prepNewSerper_link_canon (r : Rec) :
    canonStr (dget (prepNewSerper r) "link") = dget (prepNewSerper r) "link" := by
  rw [dget_prepNewSerper_link, canonStr_idem]

theorem ensureCols_fixed {cols : List String} {r : Rec}
    (h : ∀ c ∈ cols, dmem r c = true) : ensureCols cols r = r := by
  induction cols with
  | nil => rfl
  | cons c cs ih =>
    show ensureCols cs (dsetdefault r c "") = r
    rw [dsetdefault_of_dmem (h c (List.mem_cons_self _ _))]
    exact ih (fun c' hc' => h c' (List.mem_cons_of_mem _ hc'))

/-! ### Stale-marking lemmas -/

theorem markSerper_skip {now : String} {current : List String}
    {p : String × Rec} (h : ¬(p.1 ≠ "" ∧ ¬current.contains p.1 = true)) :
    markStaleSerper now current p = p.2 := by
  rw [markStaleSerper, if_neg h]

theorem markSerper_mark {now : String} {current : List String} {k : String}
    {r : Rec} (hc : k ≠ "" ∧ ¬current.contains k = true)
    (hio : dmem r "is_open" = true) :
    dget (markStaleSerper now current (k, r)) "status" = "stale" ∧
    dget (markStaleSerper now current (k, r)) "stale_at" = now ∧
    strLower (dget (markStaleSerper now current (k, r)) "is_open") = "false" ∧
    (∀ k', k' ≠ "status" → k' ≠ "stale_at" → k' ≠ "is_open" →
      dget (markStaleSerper now current (k, r)) k' = dget r k') ∧
    (∀ k', dmem r k' = true →
      dmem (markStaleSerper now current (k, r)) k' = true) := by
  rw [markStaleSerper, if_pos hc]
  by_cases hcond : dmem (dset r "status" "stale") "is_open" = true ∧
      strLower (dget (dset r "status" "stale") "is_open") ≠ "false"
  · rw [if_pos hcond]
    refine ⟨?_, ?_, ?_, ?_, ?_⟩
    · rw [dget_dset_ne _ _ (by decide), dget_dset_ne _ _ (by decide),
        dget_dset_same]
    · rw [dget_dset_same]
    · rw [dget_dset_ne _ _ (by decide), dget_dset_same]
      rfl
    · intro k' h1 h2 h3
      rw [dget_dset_ne _ _ h2, dget_dset_ne _ _ h3, dget_dset_ne _ _ h1]
    · intro k' hk'
      exact dmem_dset_mono _ _ (dmem_dset_mono _ _ (dmem_dset_mono _ _ hk'))
  · rw [if_neg hcond]
    have hA : dmem (dset r "status" "stale") "is_open" = true :=
      dmem_dset_mono _ _ hio
    have hB : strLower (dget (dset r "status" "stale") "is_open") = "false" := by
      by_contra hb
      exact hcond ⟨hA, hb⟩
    refine ⟨?_, ?_, ?_, ?_, ?_⟩
    · rw [dget_dset_ne _ _ (by decide), dget_dset_same]
    · rw [dget_dset_same]
    · rw [dget_dset_ne _ _ (by decide)]
      exact hB
    · intro k' h1 h2 h3
      rw [dget_dset_ne _ _ h2, dget_dset_ne _ _ h1]
    · intro k' hk'
      exact dmem_dset_mono _ _ (dmem_dset_mono _ _ hk')

theorem markSerper_mark_noop {now : String} {current : List String}
    {k : String} {r : Rec} (hc : k ≠ "" ∧ ¬current.contains k = true)
    (hst : dget r "status" = "stale") (hmst : dmem r "status" = true)
    (hsa : dget r "stale_at" = now) (hmsa : dmem r "stale_at" = true)
    (hiol : strLower (dget r "is_open") = "false") :
    markStaleSerper now current (k, r) = r := by
  have e1 : dset r "status" "stale" = r := by
    rw [← hst]
    exact dset_self hmst
  rw [markStaleSerper, if_pos hc, e1]
  have hcond : ¬(dmem r "is_open" = true ∧
      strLower (dget r "is_open") ≠ "false") := fun hcc => hcc.2 hiol
  rw [if_neg hcond, ← hsa]
  exact dset_self hmsa

theorem markRisk_skip {now : String} {current : List String}
    {p : String × Rec} (h : ¬(p.1 ≠ "" ∧ ¬current.contains p.1 = true)) :
    markStaleRisk now current p = ensure_schema_risk p.2 := by
  rw [markStaleRisk, if_neg h]

theorem markRisk_mark {now : String} {current : List String} {k : String}
    {r : Rec} (hc : k ≠ "" ∧ ¬current.contains k = true) :
    dget (markStaleRisk now current (k, r)) "status" = "stale" ∧
    dget (markStaleRisk now current (k, r)) "stale_at" = now ∧
    (∀ k', k' ≠ "status" → k' ≠ "stale_at" →
      dget (markStaleRisk now current (k, r)) k' = dget r k') := by
  rw [markStaleRisk, if_pos hc]
  refine ⟨?_, ?_, ?_⟩
  · rw [dget_dset_ne _ _ (by decide), dget_dset_same]
  · rw [dget_dset_same]
  · intro k' h1 h2
    rw [dget_dset_ne _ _ h2, dget_dset_ne _ _ h1]
    exact dget_ensureRisk r k'

theorem markRisk_mark_noop {now : String} {current : List String}
    {k : String} {r : Rec} (hc : k ≠ "" ∧ ¬current.contains k = true)
    (hens : ensure_schema_risk r = r)
    (hst : dget r "status" = "stale") (hmst : dmem r "status" = true)
    (hsa : dget r "stale_at" = now) (hmsa : dmem r "stale_at" = true) :
    markStaleRisk now current (k, r) = r := by
  rw [markStaleRisk, if_pos hc]
  show dset (dset (ensure_schema_risk r) "status" "stale") "stale_at" now = r
  rw [hens, ← hst, dset_self hmst, ← hsa]
  exact dset_self hmsa

/-! ### Fixed-column projection lemmas -/

theorem dget_projCols (cols : List String) (r : Rec) (k : String) :
    dget (cols.map (fun c => (c, dget r c))) k =
      if k ∈ cols then dget r k else "" := by
  induction cols with
  | nil => simp [dget]
  | cons c cs ih =>
    rw [List.map_cons]
    show (if c = k then dget r c
      else dget (cs.map (fun c => (c, dget r c))) k) = _
    by_cases hc : c = k
    · subst hc
      simp
    · rw [if_neg hc, ih]
      by_cases hk : k ∈ cs
      · rw [if_pos hk, if_pos (List.mem_cons_of_mem _ hk)]
      · rw [if_neg hk, if_neg ?_]
        intro hmem
        rcases List.mem_cons.mp hmem with h' | h'
        · exact hc h'.symm
        · exact hk h'

theorem dget_projRisk (r : Rec) (k : String) :
    dget (projRisk r) k = if k ∈ riskCols then dget r k else "" :=
  dget_projCols riskCols r k

theorem projRisk_ext {r r' : Rec}
    (h : ∀ k ∈ riskCols, dget r k = dget r' k) : projRisk r = projRisk r' := by
  unfold projRisk
  exact List.map_congr_left (fun k hk => by rw [h k hk])

theorem projRisk_idem (r : Rec) : projRisk (projRisk r) = projRisk r :=
  projRisk_ext (fun k hk => by rw [dget_projRisk, if_pos hk])

theorem dmem_projCols_of_mem {k : String} (cols : List String) (r : Rec)
    (h : k ∈ cols) : dmem (cols.map (fun c => (c, dget r c))) k = true := by
  induction cols with
  | nil => simp at h
  | cons c cs ih =>
    rw [List.map_cons, dmem]
    rcases List.mem_cons.mp h with h' | h'
    · subst h'
      simp
    · rw [ih h']
      simp

theorem dmem_projRisk_of_mem {k : String} (r : Rec) (h : k ∈ riskCols) :
    dmem (projRisk r) k = true :=
  dmem_projCols_of_mem riskCols r h

/-! ### Reconciler structure lemmas -/

theorem contains_iff_mem (l : List String) (a : String) :
    l.contains a = true ↔ a ∈ l := by
  induction l with
  | nil => simp
  | cons b bs ih =>
    simp only [List.contains_cons, Bool.or_eq_true, beq_iff_eq,
      List.mem_cons, ih]

theorem filterMap_congr_mem {α β : Type} {f g : α → Option β}
    {l : List α} (h : ∀ a ∈ l, f a = g a) :
    l.filterMap f = l.filterMap g := by
  induction l with
  | nil => rfl
  | cons x xs ih =>
    rw [List.filterMap_cons, List.filterMap_cons,
      h x (List.mem_cons_self _ _), ih (fun a ha => h a (List.mem_cons_of_mem _ ha))]

/-- `current_links` as a scan of the raw run records. -/
theorem currentLinksSerper_eq (R : List Rec) :
    currentLinksSerper R = R.filterMap (fun r =>
      if dget (prepNewSerper r) "link" ≠ "" then
        some (dget (prepNewSerper r) "link") else none) := by
  unfold currentLinksSerper
  rw [List.filterMap_map]
  apply filterMap_congr_mem
  intro r _
  simp only [Function.comp_apply]
  rw [prepNewSerper_link_canon]

/-- The appended rows as a scan of the raw run records. -/
theorem appendNewSerper_eq (ks : List String) (R : List Rec) :
    appendNewSerper ks R = R.filterMap (fun r =>
      if dget (prepNewSerper r) "link" ≠ "" ∧
          ¬ks.contains (dget (prepNewSerper r) "link") = true then
        some (dset (dset (prepNewSerper r) "status" "active") "stale_at" "")
      else none) := by
  unfold appendNewSerper
  rw [List.filterMap_map]
  apply filterMap_congr_mem
  intro r _
  simp only [Function.comp_apply]

theorem mem_appendNewSerper {ks : List String} {R : List Rec} {x : Rec}
    (h : x ∈ appendNewSerper ks R) :
    ∃ r ∈ R, dget (prepNewSerper r) "link" ≠ "" ∧
      ¬ks.contains (dget (prepNewSerper r) "link") = true ∧
      x = dset (dset (prepNewSerper r) "status" "active") "stale_at" "" := by
  rw [appendNewSerper_eq] at h
  rcases List.mem_filterMap.mp h with ⟨r, hr, hfr⟩
  by_cases hc : dget (prepNewSerper r) "link" ≠ "" ∧
      ¬ks.contains (dget (prepNewSerper r) "link") = true
  · rw [if_pos hc] at hfr
    refine ⟨r, hr, hc.1, hc.2, ?_⟩
    exact (Option.some_inj.mp hfr).symm
  · rw [if_neg hc] at hfr
    cases hfr

/-- Field facts about an appended row. -/
theorem appended_row_facts {r : Rec} :
    dget (dset (dset (prepNewSerper r) "status" "active") "stale_at" "")
        "link" = dget (prepNewSerper r) "link" ∧
    dget (dset (dset (prepNewSerper r) "status" "active") "stale_at" "")
        "status" = "active" ∧
    dget (dset (dset (prepNewSerper r) "status" "active") "stale_at" "")
        "stale_at" = "" := by
  refine ⟨?_, ?_, ?_⟩
  · rw [dget_dset_ne _ _ (by decide), dget_dset_ne _ _ (by decide)]
  · rw [dget_dset_ne _ _ (by decide), dget_dset_same]
  · rw [dget_dset_same]

theorem io_mem_serperCols : "is_open" ∈ serperCols := by decide

theorem st_mem_serperCols : "status" ∈ serperCols := by decide

theorem sa_mem_serperCols : "stale_at" ∈ serperCols := by decide

theorem lk_mem_serperCols : "link" ∈ serperCols := by decide

/-- An appended row is a fixed point of the per-row preparation. -/
theorem appended_row_fixed1 {ks : List String} {R : List Rec} {x : Rec}
    (h : x ∈ appendNewSerper ks R) :
    prepExistingSerper x = x := by
  obtain ⟨r, hr, hne, hks, hx⟩ := mem_appendNewSerper h
  rw [hx]
  have hlink := appended_row_facts (r := r).1
  have hmemcols : ∀ c ∈ serperCols, dmem (prepNewSerper r) c = true :=
    fun c hc => dmem_prepNewSerper hc
  refine prepExistingSerper_fixed ?_ ?_ ?_ ?_ ?_
  · exact dmem_dset_mono _ _ (dmem_dset_mono _ _
      (hmemcols "is_open" io_mem_serperCols))
  · exact dmem_dset_mono _ _ (dmem_dset_mono _ _
      (hmemcols "status" st_mem_serperCols))
  · exact dmem_dset_mono _ _ (dmem_dset_mono _ _
      (hmemcols "stale_at" sa_mem_serperCols))
  · exact dmem_dset_mono _ _ (dmem_dset_mono _ _
      (hmemcols "link" lk_mem_serperCols))
  · rw [hlink, prepNewSerper_link_canon]

/-- An appended row's link is one of the current run's links. -/
theorem appended_row_current {ks : List String} {R : List Rec} {x : Rec}
    (h : x ∈ appendNewSerper ks R) :
    (currentLinksSerper R).contains (dget x "link") = true := by
  obtain ⟨r, hr, hne, hks, hx⟩ := mem_appendNewSerper h
  rw [hx]
  have hlink := appended_row_facts (r := r).1
  rw [hlink, contains_iff_mem, currentLinksSerper_eq]
  exact List.mem_filterMap.mpr ⟨r, hr, if_pos hne⟩

/-- Every pair stored in the existing-rows dict holds a prepared row keyed
by its canonical link. -/
theorem exd_mem_facts {T : List Rec} {p : String × Rec}
    (h : p ∈ buildDict (T.map prepExistingSerper) (fun r => dget r "link")) :
    (∃ r0 ∈ T, p.2 = prepExistingSerper r0) ∧ dget p.2 "link" = p.1 ∧
      dmem p.2 "is_open" = true ∧ dmem p.2 "status" = true ∧
      dmem p.2 "stale_at" = true ∧ dmem p.2 "link" = true ∧
      canonStr (dget p.2 "link") = dget p.2 "link" := by
  obtain ⟨hmem, hkey⟩ := buildDict_mem h
  rcases List.mem_map.mp hmem with ⟨r0, hr0, hp2⟩
  rw [← hp2] at hkey ⊢
  refine ⟨⟨r0, hr0, rfl⟩, hkey, dmem_prepExistingSerper_io r0,
    dmem_prepExistingSerper_st r0, dmem_prepExistingSerper_sa r0,
    dmem_prepExistingSerper_link r0, ?_⟩
  rw [dget_prepExistingSerper_link, canonStr_idem]

/-- A marked (or skipped) dict row is a fixed point of the preparation and
keeps its key. -/
theorem marked_row_fixed {T : List Rec} {now : String} {cur : List String}
    {p : String × Rec}
    (h : p ∈ buildDict (T.map prepExistingSerper) (fun r => dget r "link")) :
    prepExistingSerper (markStaleSerper now cur p) = markStaleSerper now cur p ∧
    dget (markStaleSerper now cur p) "link" = p.1 := by
  obtain ⟨⟨r0, _, _⟩, hkey, hio, hst, hsa, hlk, hcanon⟩ := exd_mem_facts h
  by_cases hc : p.1 ≠ "" ∧ ¬cur.contains p.1 = true
  · obtain ⟨q1, q2, q3, q4, q5⟩ := @markSerper_mark now cur p.1 p.2 hc hio
    have hlink_eq : dget (markStaleSerper now cur (p.1, p.2)) "link" =
        dget p.2 "link" := q4 "link" (by decide) (by decide) (by decide)
    have hp : (p.1, p.2) = p := rfl
    rw [hp] at q1 q2 q3 q4 q5 hlink_eq
    constructor
    · refine prepExistingSerper_fixed (q5 _ hio) (q5 _ hst) (q5 _ hsa)
        (q5 _ hlk) ?_
      rw [hlink_eq, hcanon]
    · rw [hlink_eq, hkey]
  · rw [markSerper_skip hc]
    exact ⟨prepExistingSerper_fixed hio hst hsa hlk hcanon, hkey⟩

/-! ### Idempotence of the reconcilers (same-timestamp repeat run) -/

theorem filterMap_nil_of_none {α β : Type} {f : α → Option β} {l : List α}
    (h : ∀ a ∈ l, f a = none) : l.filterMap f = [] := by
  induction l with
  | nil => rfl
  | cons x xs ih =>
    rw [List.filterMap_cons, h x (List.mem_cons_self _ _)]
    exact ih (fun a ha => h a (List.mem_cons_of_mem _ ha))

/-- The unfolding of the search-driven reconciler. -/
theorem upsert_serper_decomp (T R : List Rec) (now : String) :
    upsert_serper T R now
      = (buildDict (T.map prepExistingSerper) (fun r => dget r "link")).map
          (markStaleSerper now (currentLinksSerper R)) ++
        appendNewSerper ((buildDict (T.map prepExistingSerper)
          (fun r => dget r "link")).map (·.1)) R := rfl

/-- The keys stored in the marked rows are exactly the dict keys. -/
theorem marked_keys_eq (T : List Rec) (now : String) (cur : List String) :
    ((buildDict (T.map prepExistingSerper) (fun r => dget r "link")).map
        (markStaleSerper now cur)).map (fun r => dget r "link")
      = (buildDict (T.map prepExistingSerper)
          (fun r => dget r "link")).map (·.1) := by
  rw [List.map_map]
  apply List.map_congr_left
  intro p hp
  exact (marked_row_fixed hp).2

/-- The keys stored in the appended rows form a sublist of the run's links. -/
theorem appendNewSerper_keys_sublist (ks : List String) (R : List Rec) :
    List.Sublist ((appendNewSerper ks R).map (fun r => dget r "link"))
      (currentLinksSerper R) := by
  rw [appendNewSerper_eq, currentLinksSerper_eq, List.map_filterMap]
  apply filterMap_sublist_of_imp
  intro r b hf
  by_cases hc : dget (prepNewSerper r) "link" ≠ "" ∧
      ¬ks.contains (dget (prepNewSerper r) "link") = true
  · rw [if_pos hc] at hf
    have hb : dget (dset (dset (prepNewSerper r) "status" "active")
        "stale_at" "") "link" = b := by
      simpa using hf
    rw [if_pos hc.1, ← hb, (appended_row_facts (r := r)).1]
  · rw [if_neg hc] at hf
    simp at hf

/-- An appended row's stored key was not an existing-dict key. -/
theorem appended_key_not_exkey {ks : List String} {R : List Rec} {x : Rec}
    (h : x ∈ appendNewSerper ks R) :
    ¬ks.contains (dget x "link") = true := by
  obtain ⟨r, hr, hne, hks, hx⟩ := mem_appendNewSerper h
  rw [hx, (appended_row_facts (r := r)).1]
  exact hks

/-- Keys of the written-back searched table are pairwise distinct when the
run's links are. -/
theorem upsert_serper_keys_nodup (E R : List Rec) (now : String)
    (hR : (currentLinksSerper R).Nodup) :
    ((upsert_serper E R now).map (fun r => dget r "link")).Nodup := by
  rw [upsert_serper_decomp, List.map_append, List.nodup_append]
  refine ⟨?_, ?_, ?_⟩
  · rw [marked_keys_eq]
    exact buildDict_keys_nodup _ _
  · exact List.Nodup.sublist (appendNewSerper_keys_sublist _ _) hR
  · rw [marked_keys_eq]
    intro a ha hb
    rcases List.mem_map.mp hb with ⟨x, hx, hxa⟩
    have hnk := appended_key_not_exkey hx
    rw [hxa] at hnk
    exact hnk ((contains_iff_mem _ _).mpr ha)

/-- Every written-back row is a fixed point of the per-row preparation. -/
theorem upsert_serper_rows_fixed {E R : List Rec} {now : String} {x : Rec}
    (h : x ∈ upsert_serper E R now) : prepExistingSerper x = x := by
  rcases List.mem_append.mp h with h' | h'
  · rcases List.mem_map.mp h' with ⟨p, hp, hx⟩
    rw [← hx]
    exact (@marked_row_fixed E now (currentLinksSerper R) p hp).1
  · exact appended_row_fixed1 h'

theorem upsert_serper_map_prep (E R : List Rec) (now : String) :
    (upsert_serper E R now).map prepExistingSerper = upsert_serper E R now := by
  conv_rhs => rw [← List.map_id (upsert_serper E R now)]
  apply List.map_congr_left
  intro x hx
  exact upsert_serper_rows_fixed hx

/-- On the repeat run with the same timestamp the stale-marking pass leaves
every written-back row unchanged. -/
theorem upsert_serper_mark_noop {E R : List Rec} {now : String} {x : Rec}
    (h : x ∈ upsert_serper E R now) :
    markStaleSerper now (currentLinksSerper R) (dget x "link", x) = x := by
  rcases List.mem_append.mp h with h' | h'
  · rcases List.mem_map.mp h' with ⟨p, hp, hx⟩
    rw [← hx]
    have hkey := (@marked_row_fixed E now (currentLinksSerper R) p hp).2
    rw [hkey]
    obtain ⟨⟨r0, hr0, hpr⟩, hk, hio, hst, hsa, hlk, hcanon⟩ := exd_mem_facts hp
    by_cases hc : p.1 ≠ "" ∧ ¬(currentLinksSerper R).contains p.1 = true
    · obtain ⟨q1, q2, q3, q4, q5⟩ :=
        @markSerper_mark now (currentLinksSerper R) p.1 p.2 hc hio
      exact markSerper_mark_noop hc q1 (q5 _ hst) q2 (q5 _ hsa) q3
    · rw [markSerper_skip hc]
      exact markSerper_skip hc
  · have hcur := appended_row_current h'
    exact markSerper_skip (fun hcc => hcc.2 hcur)

/-- Same-timestamp idempotence of the search-driven reconciler, under
pairwise-distinct current-run links. -/
theorem upsert_serper_idem (E R : List Rec) (now : String)
    (hR : (currentLinksSerper R).Nodup) :
    upsert_serper (upsert_serper E R now) R now = upsert_serper E R now := by
  have hmapE : (upsert_serper E R now).map prepExistingSerper
      = upsert_serper E R now := upsert_serper_map_prep E R now
  have hnd := upsert_serper_keys_nodup E R now hR
  have hdict : buildDict ((upsert_serper E R now).map prepExistingSerper)
      (fun r => dget r "link")
      = (upsert_serper E R now).map (fun r => (dget r "link", r)) := by
    rw [hmapE]
    exact buildDict_eq_map hnd
  have hmark : ((upsert_serper E R now).map (fun r => (dget r "link", r))).map
      (markStaleSerper now (currentLinksSerper R)) = upsert_serper E R now := by
    rw [List.map_map]
    conv_rhs => rw [← List.map_id (upsert_serper E R now)]
    apply List.map_congr_left
    intro x hx
    exact upsert_serper_mark_noop hx
  have hkeys2 : ((upsert_serper E R now).map
        (fun r => (dget r "link", r))).map (·.1)
      = (upsert_serper E R now).map (fun r => dget r "link") := by
    rw [List.map_map]
    rfl
  have hsplitkeys : (upsert_serper E R now).map (fun r => dget r "link")
      = (buildDict (E.map prepExistingSerper)
            (fun r => dget r "link")).map (·.1)
        ++ (appendNewSerper ((buildDict (E.map prepExistingSerper)
            (fun r => dget r "link")).map (·.1)) R).map
              (fun r => dget r "link") := by
    rw [upsert_serper_decomp, List.map_append, marked_keys_eq]
  have happ : appendNewSerper
      (((upsert_serper E R now).map (fun r => (dget r "link", r))).map (·.1))
        R = [] := by
    rw [hkeys2, appendNewSerper_eq]
    apply filterMap_nil_of_none
    intro r hr
    have hni : ¬(dget (prepNewSerper r) "link" ≠ "" ∧
        ¬((upsert_serper E R now).map (fun r => dget r "link")).contains
          (dget (prepNewSerper r) "link") = true) := by
      intro hcc
      apply hcc.2
      rw [contains_iff_mem, hsplitkeys]
      by_cases hk : ((buildDict (E.map prepExistingSerper)
          (fun r => dget r "link")).map (·.1)).contains
            (dget (prepNewSerper r) "link") = true
      · exact List.mem_append_left _ ((contains_iff_mem _ _).mp hk)
      · apply List.mem_append_right
        apply List.mem_map.mpr
        refine ⟨dset (dset (prepNewSerper r) "status" "active") "stale_at" "",
          ?_, ?_⟩
        · rw [appendNewSerper_eq]
          exact List.mem_filterMap.mpr ⟨r, hr, by rw [if_pos ⟨hcc.1, hk⟩]⟩
        · exact (appended_row_facts (r := r)).1
    rw [if_neg hni]
  rw [upsert_serper_decomp (upsert_serper E R now) R now, hdict, hmark, happ,
    List.append_nil]

theorem st_mem_riskCols : "status" ∈ riskCols := by decide

theorem sa_mem_riskCols : "stale_at" ∈ riskCols := by decide

theorem id_mem_riskCols : "id" ∈ riskCols := by decide

theorem ensure_projRisk (r : Rec) :
    ensure_schema_risk (projRisk r) = projRisk r :=
  ensureCols_fixed (fun _ hc => dmem_projRisk_of_mem r hc)

theorem dget_projRisk_id (r : Rec) : dget (projRisk r) "id" = dget r "id" := by
  rw [dget_projRisk, if_pos id_mem_riskCols]

/-- The unfolding of the board-API reconciler. -/
theorem upsert_risk_decomp (T R : List Rec) (now : String) :
    upsert_risk T R now
      = ((buildDict (T.map ensure_schema_risk) (fun r => dget r "id")).map
          (markStaleRisk now (currentIdsRisk R)) ++
        appendNewRisk ((buildDict (T.map ensure_schema_risk)
          (fun r => dget r "id")).map (·.1)) R).map projRisk := rfl

theorem mem_appendNewRisk {ks : List String} {R : List Rec} {x : Rec}
    (h : x ∈ appendNewRisk ks R) :
    ∃ r ∈ R, dget r "id" ≠ "" ∧ ¬ks.contains (dget r "id") = true ∧
      x = dset (dset (ensure_schema_risk r) "status" "active")
        "stale_at" "" := by
  rcases List.mem_filterMap.mp h with ⟨r, hr, hfr⟩
  by_cases hc : dget r "id" ≠ "" ∧ ¬ks.contains (dget r "id") = true
  · rw [if_pos hc] at hfr
    exact ⟨r, hr, hc.1, hc.2, (Option.some_inj.mp hfr).symm⟩
  · rw [if_neg hc] at hfr
    cases hfr

/-- The stored `id` of an appended board-API row. -/
theorem appended_risk_id (r : Rec) :
    dget (dset (dset (ensure_schema_risk r) "status" "active") "stale_at" "")
      "id" = dget r "id" := by
  rw [dget_dset_ne _ _ (by decide), dget_dset_ne _ _ (by decide),
    dget_ensureRisk]

theorem appended_risk_key_not_exkey {ks : List String} {R : List Rec}
    {x : Rec} (h : x ∈ appendNewRisk ks R) :
    ¬ks.contains (dget x "id") = true := by
  obtain ⟨r, hr, hne, hks, hx⟩ := mem_appendNewRisk h
  rw [hx, appended_risk_id]
  exact hks

theorem appended_risk_current {ks : List String} {R : List Rec} {x : Rec}
    (h : x ∈ appendNewRisk ks R) :
    (currentIdsRisk R).contains (dget x "id") = true := by
  obtain ⟨r, hr, hne, hks, hx⟩ := mem_appendNewRisk h
  rw [hx, appended_risk_id, contains_iff_mem]
  exact List.mem_filterMap.mpr
    ⟨r, hr, by rw [if_pos (dmem_of_dget_ne hne)]⟩

theorem appendNewRisk_keys_sublist (ks : List String) (R : List Rec) :
    List.Sublist ((appendNewRisk ks R).map (fun r => dget r "id"))
      (currentIdsRisk R) := by
  unfold appendNewRisk currentIdsRisk
  rw [List.map_filterMap]
  apply filterMap_sublist_of_imp
  intro r b hf
  by_cases hc : dget r "id" ≠ "" ∧ ¬ks.contains (dget r "id") = true
  · rw [if_pos hc] at hf
    have hb : dget (dset (dset (ensure_schema_risk r) "status" "active")
        "stale_at" "") "id" = b := by
      simpa using hf
    rw [if_pos (dmem_of_dget_ne hc.1), ← hb, appended_risk_id]
  · rw [if_neg hc] at hf
    simp at hf

/-- The marked (or skipped) board-API row keeps its dict key in place. -/
theorem marked_risk_key {T : List Rec} {now : String} {cur : List String}
    {p : String × Rec}
    (hp : p ∈ buildDict (T.map ensure_schema_risk) (fun r => dget r "id")) :
    dget (markStaleRisk now cur p) "id" = p.1 := by
  have hkey : dget p.2 "id" = p.1 := (buildDict_mem hp).2
  by_cases hc : p.1 ≠ "" ∧ ¬cur.contains p.1 = true
  · obtain ⟨q1, q2, q3⟩ := @markRisk_mark now cur p.1 p.2 hc
    exact (q3 "id" (by decide) (by decide)).trans hkey
  · rw [markRisk_skip hc, dget_ensureRisk]
    exact hkey

theorem marked_risk_keys_eq (T : List Rec) (now : String) (cur : List String) :
    ((buildDict (T.map ensure_schema_risk) (fun r => dget r "id")).map
        (markStaleRisk now cur)).map (fun r => dget r "id")
      = (buildDict (T.map ensure_schema_risk)
          (fun r => dget r "id")).map (·.1) := by
  rw [List.map_map]
  apply List.map_congr_left
  intro p hp
  exact marked_risk_key hp

theorem upsert_risk_keys_eq (E R : List Rec) (now : String) :
    (upsert_risk E R now).map (fun r => dget r "id")
      = (upsert_risk_rows E R now).map (fun r => dget r "id") := by
  unfold upsert_risk
  rw [List.map_map]
  apply List.map_congr_left
  intro x hx
  exact dget_projRisk_id x

theorem upsert_risk_rows_keys_nodup (E R : List Rec) (now : String)
    (hR : (currentIdsRisk R).Nodup) :
    ((upsert_risk_rows E R now).map (fun r => dget r "id")).Nodup := by
  unfold upsert_risk_rows
  rw [List.map_append, List.nodup_append]
  refine ⟨?_, ?_, ?_⟩
  · rw [marked_risk_keys_eq]
    exact buildDict_keys_nodup _ _
  · exact List.Nodup.sublist (appendNewRisk_keys_sublist _ _) hR
  · rw [marked_risk_keys_eq]
    intro a ha hb
    rcases List.mem_map.mp hb with ⟨x, hx, hxa⟩
    have hnk := appended_risk_key_not_exkey hx
    rw [hxa] at hnk
    exact hnk ((contains_iff_mem _ _).mpr ha)

theorem upsert_risk_keys_nodup (E R : List Rec) (now : String)
    (hR : (currentIdsRisk R).Nodup) :
    ((upsert_risk E R now).map (fun r => dget r "id")).Nodup := by
  rw [upsert_risk_keys_eq]
  exact upsert_risk_rows_keys_nodup E R now hR

theorem upsert_risk_map_ensure (E R : List Rec) (now : String) :
    (upsert_risk E R now).map ensure_schema_risk = upsert_risk E R now := by
  conv_rhs => rw [← List.map_id (upsert_risk E R now)]
  apply List.map_congr_left
  intro x hx
  rcases List.mem_map.mp hx with ⟨y, hy, hyx⟩
  rw [← hyx]
  exact ensure_projRisk y

theorem upsert_risk_map_proj (E R : List Rec) (now : String) :
    (upsert_risk E R now).map projRisk = upsert_risk E R now := by
  conv_rhs => rw [← List.map_id (upsert_risk E R now)]
  apply List.map_congr_left
  intro x hx
  rcases List.mem_map.mp hx with ⟨y, hy, hyx⟩
  rw [← hyx]
  exact projRisk_idem y

/-- On the repeat run with the same timestamp the board-API stale-marking
pass leaves every written-back row unchanged. -/
theorem upsert_risk_mark_noop {E R : List Rec} {now : String} {x : Rec}
    (h : x ∈ upsert_risk E R now) :
    markStaleRisk now (currentIdsRisk R) (dget x "id", x) = x := by
  rcases List.mem_map.mp h with ⟨y, hy, hyx⟩
  rw [← hyx]
  rcases List.mem_append.mp hy with hy' | hy'
  · rcases List.mem_map.mp hy' with ⟨p, hp, hpy⟩
    rw [← hpy]
    have hkey : dget (markStaleRisk now (currentIdsRisk R) p) "id" = p.1 :=
      marked_risk_key hp
    have hkx : dget (projRisk (markStaleRisk now (currentIdsRisk R) p)) "id"
        = p.1 := by
      rw [dget_projRisk_id, hkey]
    rw [hkx]
    by_cases hc : p.1 ≠ "" ∧ ¬(currentIdsRisk R).contains p.1 = true
    · obtain ⟨q1, q2, q3⟩ := @markRisk_mark now (currentIdsRisk R) p.1 p.2 hc
      exact markRisk_mark_noop hc (ensure_projRisk _)
        (by rw [dget_projRisk, if_pos st_mem_riskCols]; exact q1)
        (dmem_projRisk_of_mem _ st_mem_riskCols)
        (by rw [dget_projRisk, if_pos sa_mem_riskCols]; exact q2)
        (dmem_projRisk_of_mem _ sa_mem_riskCols)
    · have h1 : markStaleRisk now (currentIdsRisk R)
          (p.1, projRisk (markStaleRisk now (currentIdsRisk R) p))
          = ensure_schema_risk
              (projRisk (markStaleRisk now (currentIdsRisk R) p)) :=
        markRisk_skip hc
      exact h1.trans (ensure_projRisk _)
  · have hcur := appended_risk_current hy'
    rw [dget_projRisk_id]
    exact markRisk_skip (fun hcc => hcc.2 hcur) |>.trans (ensure_projRisk y)

/-- Same-timestamp idempotence of the board-API reconciler, under
pairwise-distinct nonempty current-run ids. -/
theorem upsert_risk_idem (E R : List Rec) (now : String)
    (hR : (currentIdsRisk R).Nodup) :
    upsert_risk (upsert_risk E R now) R now = upsert_risk E R now := by
  have hmapE : (upsert_risk E R now).map ensure_schema_risk
      = upsert_risk E R now := upsert_risk_map_ensure E R now
  have hnd := upsert_risk_keys_nodup E R now hR
  have hdict : buildDict ((upsert_risk E R now).map ensure_schema_risk)
      (fun r => dget r "id")
      = (upsert_risk E R now).map (fun r => (dget r "id", r)) := by
    rw [hmapE]
    exact buildDict_eq_map hnd
  have hmark : ((upsert_risk E R now).map (fun r => (dget r "id", r))).map
      (markStaleRisk now (currentIdsRisk R)) = upsert_risk E R now := by
    rw [List.map_map]
    conv_rhs => rw [← List.map_id (upsert_risk E R now)]
    apply List.map_congr_left
    intro x hx
    exact upsert_risk_mark_noop hx
  have hkeys2 : ((upsert_risk E R now).map
        (fun r => (dget r "id", r))).map (·.1)
      = (upsert_risk E R now).map (fun r => dget r "id") := by
    rw [List.map_map]
    rfl
  have hsplitkeys : (upsert_risk E R now).map (fun r => dget r "id")
      = (buildDict (E.map ensure_schema_risk)
            (fun r => dget r "id")).map (·.1)
        ++ (appendNewRisk ((buildDict (E.map ensure_schema_risk)
            (fun r => dget r "id")).map (·.1)) R).map
              (fun r => dget r "id") := by
    rw [upsert_risk_keys_eq]
    unfold upsert_risk_rows
    rw [List.map_append, marked_risk_keys_eq]
  have happ : appendNewRisk
      (((upsert_risk E R now).map (fun r => (dget r "id", r))).map (·.1))
        R = [] := by
    rw [hkeys2]
    unfold appendNewRisk
    apply filterMap_nil_of_none
    intro r hr
    have hni : ¬(dget r "id" ≠ "" ∧
        ¬((upsert_risk E R now).map (fun r => dget r "id")).contains
          (dget r "id") = true) := by
      intro hcc
      apply hcc.2
      rw [contains_iff_mem, hsplitkeys]
      by_cases hk : ((buildDict (E.map ensure_schema_risk)
          (fun r => dget r "id")).map (·.1)).contains (dget r "id") = true
      · exact List.mem_append_left _ ((contains_iff_mem _ _).mp hk)
      · apply List.mem_append_right
        apply List.mem_map.mpr
        refine ⟨dset (dset (ensure_schema_risk r) "status" "active")
          "stale_at" "", ?_, ?_⟩
        · exact List.mem_filterMap.mpr ⟨r, hr, by rw [if_pos ⟨hcc.1, hk⟩]⟩
        · exact appended_risk_id r
    rw [if_neg hni]
  rw [upsert_risk_decomp (upsert_risk E R now) R now, hdict, hmark, happ,
    List.append_nil]
  exact upsert_risk_map_proj E R now

/-- C1 (amended): reconciliation is idempotent for a repeat run that reuses
the SAME run timestamp, provided the current run's keys are pairwise
distinct: both `upsert_and_mark_stale` variants then produce no further
state change — no new stale transitions, no duplicate appends, and every
field (including `stale_at`) of every written row unchanged.  The
unqualified claim fails (`spec_C1_counterexample`): a real repeat run
carries a fresh `utc_now_iso()` timestamp and unconditionally restamps
`stale_at` on every already-stale row, and a run listing the same key twice
appends two rows which the repeat run collapses into one. -/
theorem spec_C1_reconcile_idempotent (E F R S : List Rec) (now : String)
    (hR : (currentLinksSerper R).Nodup) (hS : (currentIdsRisk S).Nodup) :
    upsert_serper (upsert_serper E R now) R now = upsert_serper E R now ∧
    upsert_risk (upsert_risk F S now) S now = upsert_risk F S now :=
  ⟨upsert_serper_idem E R now hR, upsert_risk_idem F S now hS⟩

/-- Witness for C1 at concrete tables and runs. -/
theorem spec_C1_reconcile_idempotent_witness :
    (currentLinksSerper [[("link", "a")]]).Nodup ∧
    (currentIdsRisk [[("id", "7")]]).Nodup ∧
    (upsert_serper (upsert_serper [[("link", "b"), ("is_open", "true")]]
          [[("link", "a")]] "t") [[("link", "a")]] "t"
        = upsert_serper [[("link", "b"), ("is_open", "true")]]
            [[("link", "a")]] "t" ∧
      upsert_risk (upsert_risk [[("id", "1")]] [[("id", "7")]] "t")
          [[("id", "7")]] "t"
        = upsert_risk [[("id", "1")]] [[("id", "7")]] "t") :=
  ⟨by decide, by decide,
    spec_C1_reconcile_idempotent [[("link", "b"), ("is_open", "true")]]
      [[("id", "1")]] [[("link", "a")]] [[("id", "7")]] "t"
      (by decide) (by decide)⟩

/-- C1 counterexample: with the repeat run's fresh timestamp an
already-stale record does NOT keep its previous `stale_at` (it is
restamped), and a run carrying the same id twice appends two rows of which
the repeat run keeps only one — the reconciler is not unconditionally
idempotent. -/
theorem spec_C1_counterexample :
    (dget ((upsert_risk (upsert_risk [[("id", "1")]] [] "t1") [] "t2").headD
        []) "stale_at" = "t2" ∧
      dget ((upsert_risk [[("id", "1")]] [] "t1").headD [])
        "stale_at" = "t1") ∧
    ((upsert_risk [] [[("id", "7")], [("id", "7")]] "t1").length = 2 ∧
      (upsert_risk (upsert_risk [] [[("id", "7")], [("id", "7")]] "t1")
        [[("id", "7")], [("id", "7")]] "t1").length = 1) := by
  decide

/-- C6 (amended): a persisted record whose key is present in the current
run is carried into the written-back table with every content field equal
to its previous value, EXCEPT that the search-driven reconciler rewrites
the stored `link` to its canonical form in place (and defaults the
lifecycle columns), and the board-API variant re-projects the row onto its
fixed column schema. -/
theorem spec_C6_present_rows_frame (E R : List Rec) (now : String) :
    (∀ p ∈ buildDict (E.map prepExistingSerper) (fun r => dget r "link"),
      ¬(p.1 ≠ "" ∧ ¬(currentLinksSerper R).contains p.1 = true) →
      markStaleSerper now (currentLinksSerper R) p ∈ upsert_serper E R now ∧
      ∃ r0 ∈ E,
        (∀ k, k ≠ "link" →
          dget (markStaleSerper now (currentLinksSerper R) p) k
            = dget r0 k) ∧
        dget (markStaleSerper now (currentLinksSerper R) p) "link"
          = canonStr (dget r0 "link")) ∧
    (∀ p ∈ buildDict (E.map ensure_schema_risk) (fun r => dget r "id"),
      ¬(p.1 ≠ "" ∧ ¬(currentIdsRisk R).contains p.1 = true) →
      projRisk (markStaleRisk now (currentIdsRisk R) p)
          ∈ upsert_risk E R now ∧
      ∃ r0 ∈ E, ∀ k ∈ riskCols,
        dget (projRisk (markStaleRisk now (currentIdsRisk R) p)) k
          = dget r0 k) := by
  constructor
  · intro p hp hskip
    refine ⟨List.mem_append_left _ (List.mem_map_of_mem _ hp), ?_⟩
    obtain ⟨⟨r0, hr0, hpr⟩, hk, hio, hst, hsa, hlk, hcanon⟩ :=
      exd_mem_facts hp
    rw [markSerper_skip hskip]
    refine ⟨r0, hr0, ?_, ?_⟩
    · intro k hkn
      rw [hpr, dget_prepExistingSerper_ne r0 hkn]
    · rw [hpr, dget_prepExistingSerper_link]
  · intro p hp hskip
    refine ⟨List.mem_map_of_mem _
      (List.mem_append_left _ (List.mem_map_of_mem _ hp)), ?_⟩
    obtain ⟨hmem, hkey⟩ := buildDict_mem hp
    rcases List.mem_map.mp hmem with ⟨r0, hr0, hpr⟩
    rw [markRisk_skip hskip]
    refine ⟨r0, hr0, ?_⟩
    intro k hk
    rw [dget_projRisk, if_pos hk, ← hpr, dget_ensureRisk, dget_ensureRisk]

/-- Witness for C6 at a concrete present-key record. -/
theorem spec_C6_present_rows_frame_witness :
    (("a", [("link", "a"), ("title", "T"), ("is_open", ""), ("status", ""), ("stale_at", "")])
        ∈ buildDict ([[("link", "a"), ("title", "T")]].map prepExistingSerper)
          (fun r => dget r "link") ∧
      ¬(("a" : String) ≠ "" ∧
        ¬(currentLinksSerper [[("link", "a")]]).contains "a" = true)) ∧
    (markStaleSerper "t" (currentLinksSerper [[("link", "a")]])
        ("a", [("link", "a"), ("title", "T"), ("is_open", ""), ("status", ""),
          ("stale_at", "")])
        ∈ upsert_serper [[("link", "a"), ("title", "T")]]
          [[("link", "a")]] "t" ∧
      ∃ r0 ∈ [[("link", "a"), ("title", "T")]],
        (∀ k, k ≠ "link" →
          dget (markStaleSerper "t" (currentLinksSerper [[("link", "a")]])
            ("a", [("link", "a"), ("title", "T"), ("is_open", ""), ("status", ""),
              ("stale_at", "")])) k = dget r0 k) ∧
        dget (markStaleSerper "t" (currentLinksSerper [[("link", "a")]])
          ("a", [("link", "a"), ("title", "T"), ("is_open", ""), ("status", ""),
            ("stale_at", "")])) "link" = canonStr (dget r0 "link")) := by
  constructor
  · constructor
    · decide
    · decide
  · exact (spec_C6_present_rows_frame [[("link", "a"), ("title", "T")]]
      [[("link", "a")]] "t").1
      ("a", [("link", "a"), ("title", "T"), ("is_open", ""), ("status", ""),
        ("stale_at", "")])
      (by decide) (by decide)

/-- C6 counterexample: a persisted record whose key is present in the
current run is NOT left unmodified — the search reconciler rewrites its
stored `link` in place to the canonical form (the row is skipped by the
stale pass: `status` stays empty, and no duplicate is appended). -/
theorem spec_C6_counterexample :
    dget ((upsert_serper
        [[("link", "https://il.linkedin.com/jobs/view/ds-123?x=1")]]
        [[("link", "https://il.linkedin.com/jobs/view/ds-123?x=1")]]
        "t").headD []) "link"
      = "https://www.linkedin.com/jobs/view/123/" ∧
    dget ((upsert_serper
        [[("link", "https://il.linkedin.com/jobs/view/ds-123?x=1")]]
        [[("link", "https://il.linkedin.com/jobs/view/ds-123?x=1")]]
        "t").headD []) "link"
      ≠ "https://il.linkedin.com/jobs/view/ds-123?x=1" ∧
    dget ((upsert_serper
        [[("link", "https://il.linkedin.com/jobs/view/ds-123?x=1")]]
        [[("link", "https://il.linkedin.com/jobs/view/ds-123?x=1")]]
        "t").headD []) "status" = "" ∧
    (upsert_serper
        [[("link", "https://il.linkedin.com/jobs/view/ds-123?x=1")]]
        [[("link", "https://il.linkedin.com/jobs/view/ds-123?x=1")]]
        "t").length = 1 := by
  decide

/-- C10 (amended): the stale transition of the search-driven reconciler
also forces `is_open`: every existing-dict record whose nonempty canonical
link is absent from the current run is written back with
`status = "stale"`, `stale_at = now` and an `is_open` that lowercases to
`"false"`.  The claim's universal consequence is false
(`spec_C10_counterexample`): a persisted row that already has
`status = "stale"` and `is_open = "true"` is skipped — not rewritten — when
its link IS present in the current run, so the written table can contain a
stale row with `is_open` true. -/
theorem spec_C10_stale_forces_is_open (E R : List Rec) (now : String) :
    ∀ p ∈ buildDict (E.map prepExistingSerper) (fun r => dget r "link"),
      p.1 ≠ "" → ¬(currentLinksSerper R).contains p.1 = true →
      dget (markStaleSerper now (currentLinksSerper R) p) "status"
          = "stale" ∧
      dget (markStaleSerper now (currentLinksSerper R) p) "stale_at" = now ∧
      strLower (dget (markStaleSerper now (currentLinksSerper R) p)
        "is_open") = "false" ∧
      markStaleSerper now (currentLinksSerper R) p ∈ upsert_serper E R now := by
  intro p hp h1 h2
  obtain ⟨hE, hk, hio, hst, hsa, hlk, hcanon⟩ := exd_mem_facts hp
  obtain ⟨q1, q2, q3, q4, q5⟩ :=
    @markSerper_mark now (currentLinksSerper R) p.1 p.2 ⟨h1, h2⟩ hio
  exact ⟨q1, q2, q3, List.mem_append_left _ (List.mem_map_of_mem _ hp)⟩

/-- Witness for C10 at a concrete absent-key record with `is_open = "TRUE"`. -/
theorem spec_C10_stale_forces_is_open_witness :
    (("b", [("link", "b"), ("is_open", "TRUE"), ("status", ""),
        ("stale_at", "")])
      ∈ buildDict ([[("link", "b"), ("is_open", "TRUE")]].map
          prepExistingSerper) (fun r => dget r "link") ∧
      ("b" : String) ≠ "" ∧
      ¬(currentLinksSerper ([] : List Rec)).contains "b" = true) ∧
    (dget (markStaleSerper "t" (currentLinksSerper ([] : List Rec))
        ("b", [("link", "b"), ("is_open", "TRUE"), ("status", ""),
          ("stale_at", "")])) "status" = "stale" ∧
      dget (markStaleSerper "t" (currentLinksSerper ([] : List Rec))
        ("b", [("link", "b"), ("is_open", "TRUE"), ("status", ""),
          ("stale_at", "")])) "stale_at" = "t" ∧
      strLower (dget (markStaleSerper "t" (currentLinksSerper ([] : List Rec))
        ("b", [("link", "b"), ("is_open", "TRUE"), ("status", ""),
          ("stale_at", "")])) "is_open") = "false" ∧
      markStaleSerper "t" (currentLinksSerper ([] : List Rec))
        ("b", [("link", "b"), ("is_open", "TRUE"), ("status", ""),
          ("stale_at", "")])
        ∈ upsert_serper [[("link", "b"), ("is_open", "TRUE")]]
            ([] : List Rec) "t") :=
  ⟨⟨by decide, by decide, by decide⟩,
    spec_C10_stale_forces_is_open [[("link", "b"), ("is_open", "TRUE")]]
      ([] : List Rec) "t"
      ("b", [("link", "b"), ("is_open", "TRUE"), ("status", ""),
        ("stale_at", "")])
      (by decide) (by decide) (by decide)⟩

/-- C10 counterexample: after a run in which the stale row's link is
present again, the written table still holds a row with `status = "stale"`
and `is_open = "true"` — staleness does not globally exclude an open flag. -/
theorem spec_C10_counterexample :
    dget ((upsert_serper [[("link", "a"), ("status", "stale"),
        ("is_open", "true")]] [[("link", "a")]] "t").headD [])
      "status" = "stale" ∧
    dget ((upsert_serper [[("link", "a"), ("status", "stale"),
        ("is_open", "true")]] [[("link", "a")]] "t").headD [])
      "is_open" = "true" ∧
    (upsert_serper [[("link", "a"), ("status", "stale"),
        ("is_open", "true")]] [[("link", "a")]] "t").length = 1 := by
  decide

/-- C2 (code bug): the dedup does NOT respect the configured source order.
`merge_job_csvs` re-sorts the collected files lexicographically
(`sorted(list(dict.fromkeys(files)))`, whose own comment says
"unique + keep order"), so on a run where `riskified_ds_jobs.csv` and
`melio_ds_jobs.csv` both list the same canonical link, the glob-collection
order has riskified first (matching `INPUT_GLOBS` priority), yet the merged
table keeps the melio row — the earlier-listed source loses the tie. -/
theorem spec_C2_sorted_breaks_priority :
    dedupFirst [] ((INPUT_GLOBS.map (glob_glob
        ["riskified_ds_jobs.csv", "melio_ds_jobs.csv"])).flatten)
      = ["riskified_ds_jobs.csv", "melio_ds_jobs.csv"] ∧
    collectFiles ["riskified_ds_jobs.csv", "melio_ds_jobs.csv"] INPUT_GLOBS
      = ["melio_ds_jobs.csv", "riskified_ds_jobs.csv"] ∧
    (merge_job_csvs id id ["riskified_ds_jobs.csv", "melio_ds_jobs.csv"]
        c2Load INPUT_GLOBS).rows.map
          (fun r => (dget r "title", dget r "origin_file"))
      = [("Melio DS", "melio_ds_jobs.csv")] := by
  decide

/-- C3: link canonicalization is idempotent — for every string `u`,
`canonicalize_job_link (canonicalize_job_link u) = canonicalize_job_link u`;
in particular an already-canonical job-view URL maps to itself and a
non-matching URL passes through unchanged (and then unchanged again). -/
theorem spec_C3_canonicalize_idempotent (u : List Char) :
    canonicalize_job_link (canonicalize_job_link u) = canonicalize_job_link u :=
  canon_idem u

end Jobs
